import Mathlib

set_option maxHeartbeats 1000000
set_option maxRecDepth 8000

/-!
Verification development for the docs ingestion pipeline of `src/lib/docs.ts`
(the PinchTab marketing-site repository).  Pure functions of the source are
translated directly; the effectful boundaries (HTTP fetch, the Astro markdown
renderer, and the JS `URL` constructor) are passed in as explicit function
parameters of the model, so every theorem quantifies over them.  JS strings are
modelled as Lean `String`; JS numbers used by the pipeline are natural numbers.
-/

/-! ## Decimal numerals

Models the JS number-to-string conversion used by the template literal
in `makeUniqueSlug` for nonnegative integers. -/

def decDigit : Nat → Char
  | 0 => '0'
  | 1 => '1'
  | 2 => '2'
  | 3 => '3'
  | 4 => '4'
  | 5 => '5'
  | 6 => '6'
  | 7 => '7'
  | 8 => '8'
  | _ => '9'

/-- Digits of `n` in base 10, most significant first, with structural fuel
(`decDigits` supplies enough fuel, see `decValue_decDigits`). -/
def decDigitsAux : Nat → Nat → List Char
  | 0, _ => []
  | fuel + 1, n =>
    if n < 10 then [decDigit n]
    else decDigitsAux fuel (n / 10) ++ [decDigit (n % 10)]

def decDigits (n : Nat) : List Char := decDigitsAux (n + 1) n

def natToDec (n : Nat) : String := ⟨decDigits n⟩

def decDigitVal (c : Char) : Nat := c.toNat - 48

def decValue (cs : List Char) : Nat :=
  cs.foldl (fun acc c => 10 * acc + decDigitVal c) 0

/-! ## Character-level string primitives

The Lean core `String` functions (`splitOn`, `trim`, `replace`, …) are
defined by well-founded recursion on byte positions, which the kernel cannot
evaluate; the JS string operations of the source are therefore modelled
directly on the character list of a `String`, with the same semantics. -/

/-- JS `split(sep)` for a one-character separator: `""` splits to `[""]`,
separators at the ends produce empty fields, like `String.prototype.split`. -/
def splitOnCharAux (sep : Char) : List Char → List Char → List String
  | [], acc => [⟨acc.reverse⟩]
  | c :: rest, acc =>
    if c = sep then ⟨acc.reverse⟩ :: splitOnCharAux sep rest []
    else splitOnCharAux sep rest (c :: acc)

def splitOnChar (sep : Char) (s : String) : List String := splitOnCharAux sep s.data []

/-- JS `toLowerCase`, for the ASCII range the pipeline relies on. -/
def asciiLowerStr (s : String) : String := ⟨s.data.map Char.toLower⟩

/-- JS `endsWith`. -/
def strEndsWith (s suffixStr : String) : Bool :=
  suffixStr.data.reverse.isPrefixOf s.data.reverse

def jsTrimChars (cs : List Char) : List Char :=
  ((cs.dropWhile Char.isWhitespace).reverse.dropWhile Char.isWhitespace).reverse

/-- JS `trim`. -/
def jsTrim (s : String) : String := ⟨jsTrimChars s.data⟩

/-! ## Path normalization (`normalizeSourcePath`, lines 741-750)

The source applies three regex replaces in order: all backslashes become
slashes, then one leading `./`-run (a single dot followed by one or more
slashes) is stripped, then one leading run of slashes is stripped. -/

def backslashToSlash (cs : List Char) : List Char :=
  cs.map fun c => if c = '\\' then '/' else c

def stripDotSlash (cs : List Char) : List Char :=
  match cs with
  | c1 :: c2 :: rest =>
    if c1 = '.' ∧ c2 = '/' then rest.dropWhile fun c => c = '/' else cs
  | _ => cs

def stripLeadingSlashes (cs : List Char) : List Char :=
  cs.dropWhile fun c => c = '/'

def normStrChars (cs : List Char) : List Char :=
  stripLeadingSlashes (stripDotSlash (backslashToSlash cs))

/-- The pure string part of `normalizeSourcePath` (and the identical first
line of `slugFromPath`, line 710). -/
def normStr (s : String) : String := ⟨normStrChars s.data⟩

/-- Error taxonomy of the pipeline (the spec names them `InvalidPathError`,
`ConfigSchemaError`, `SourceFetchError`, `MalformedReferenceError`,
`EmptyResultError`; the source throws plain `Error`s with these meanings). -/
inductive LoadError where
  | invalidPath (sourcePath : String)
  | configSchema
  | fetchFailed (sourcePath : String)
  | malformedReference (sourcePath : String)
  | emptyResult
deriving DecidableEq

/-- `normalizeSourcePath` (lines 741-750): normalize, then throw when the
result is empty or one of its `/`-separated segments is `..`. -/
def normalizeSourcePathE (sourcePath : String) : Except LoadError String :=
  let normalized := normStr sourcePath
  if normalized = "" then .error (.invalidPath sourcePath)
  else if (splitOnChar '/' normalized).contains ".." then .error (.invalidPath sourcePath)
  else .ok normalized

/-- `TEMP_SKIPPED_DOCS` (lines 45-47). -/
def tempSkippedDocs : List String := ["references/api-reference.json"]

/-- `isTemporarilySkippedDoc` (lines 752-754); it re-normalizes its argument,
so it can itself throw. -/
def isTemporarilySkippedDocE (sourcePath : String) : Except LoadError Bool :=
  match normalizeSourcePathE sourcePath with
  | .error e => .error e
  | .ok n => .ok (tempSkippedDocs.contains (asciiLowerStr n))

/-- `isApiReferenceJson` (lines 95-97); also re-normalizes. -/
def isApiReferenceJsonE (sourcePath : String) : Except LoadError Bool :=
  match normalizeSourcePathE sourcePath with
  | .error e => .error e
  | .ok n => .ok (strEndsWith (asciiLowerStr n) "references/api-reference.json")

/-! ## Slug derivation (`slugify`, `slugFromPath`, `makeUniqueSlug`) -/

/-- Collapses each maximal run of non-`[a-z0-9]` characters into one dash;
the Bool argument records whether we are inside such a run
(models the global regex replace on line 705). -/
def slugifyCollapse : List Char → Bool → List Char
  | [], _ => []
  | c :: rest, inRun =>
    if ('a' ≤ c ∧ c ≤ 'z') ∨ ('0' ≤ c ∧ c ≤ '9') then c :: slugifyCollapse rest false
    else if inRun then slugifyCollapse rest true
    else '-' :: slugifyCollapse rest true

def stripDashes (cs : List Char) : List Char :=
  ((cs.dropWhile fun c => c = '-').reverse.dropWhile fun c => c = '-').reverse

/-- `slugify` (lines 702-707): lowercase, dash out non-alphanumeric runs,
strip leading/trailing dashes. -/
def slugify (value : String) : String :=
  ⟨stripDashes (slugifyCollapse (value.data.map Char.toLower) false)⟩

/-- Strips a final `.ext` (a dot followed by one or more non-dot characters)
from a file name, modelling `replace(/\.[^.]+$/, "")` on lines 692 and 712. -/
def stripExtension (fileName : String) : String :=
  let rev := fileName.data.reverse
  let ext := rev.takeWhile fun c => c ≠ '.'
  match rev.drop ext.length with
  | '.' :: restRev => if ext = [] then fileName else ⟨restRev.reverse⟩
  | _ => fileName

/-- `slugFromPath` (lines 709-724). -/
def slugFromPath (sourcePath : String) : String :=
  let normalized := normStr sourcePath
  let fileName := (splitOnChar '/' normalized).getLastD normalized
  let base := slugify (stripExtension fileName)
  if base = "readme" ∨ base = "" then
    let parts := (splitOnChar '/' normalized).filter fun s => s ≠ ""
    if parts.length ≤ 1 then "home"
    else
      let parent := slugify (parts.getD (parts.length - 2) "")
      if parent = "" then "home" else parent
  else base

/-- The string `baseSlug ++ "-" ++ suffix` built by the template literal on
line 736. -/
def suffixSlug (baseSlug : String) (k : Nat) : String :=
  baseSlug ++ "-" ++ natToDec k

/-- The `while (seen.has(...)) suffix += 1` loop of `makeUniqueSlug`, with
explicit fuel; `makeUniqueSlug` supplies enough fuel for the loop to reach a
free suffix (see `findFreeSuffix_spec`). -/
def findFreeSuffix (seen : List String) (baseSlug : String) : Nat → Nat → Nat
  | k, 0 => k
  | k, fuel + 1 =>
    if suffixSlug baseSlug k ∈ seen then findFreeSuffix seen baseSlug (k + 1) fuel
    else k

/-- `makeUniqueSlug` (lines 726-739).  The JS version mutates the `seen` set;
the model returns the slug together with the updated set (a list in insertion
order). -/
def makeUniqueSlug (baseSlug : String) (seen : List String) : String × List String :=
  if baseSlug ∈ seen then
    let k := findFreeSuffix seen baseSlug 2 (seen.length + 1)
    (suffixSlug baseSlug k, seen ++ [suffixSlug baseSlug k])
  else
    (baseSlug, seen ++ [baseSlug])

/-! ## Section labels (`sectionLabel`, lines 77-84) -/

/-- Replaces each maximal run of `-`/`_` with a single space
(the regex replace on line 79). -/
def collapseSeparators : List Char → Bool → List Char
  | [], _ => []
  | c :: rest, inRun =>
    if c = '-' ∨ c = '_' then
      if inRun then collapseSeparators rest true
      else ' ' :: collapseSeparators rest true
    else c :: collapseSeparators rest false

def capitalizeWord (w : String) : String :=
  match w.data with
  | [] => ""
  | c :: rest => ⟨c.toUpper :: rest⟩

/-- Splits into the maximal nonempty runs of non-whitespace characters; the
JS `trim().split(/\s+/)` of line 81 yields exactly these words on a nonempty
trimmed string, and a single empty word (capitalized to itself and joined to
the empty string) otherwise. -/
def splitWsWords : List Char → List String
  | [] => []
  | c :: rest =>
    if c.isWhitespace then splitWsWords rest
    else
      match splitWsWords rest with
      | [] => [⟨[c]⟩]
      | w :: ws => if rest.head?.any Char.isWhitespace then ⟨[c]⟩ :: w :: ws else ⟨c :: w.data⟩ :: ws

def joinWithSpace : List String → String
  | [] => ""
  | [w] => w
  | w :: rest => w ++ " " ++ joinWithSpace rest

/-- `sectionLabel` (lines 77-84). -/
def sectionLabelFn (sectionId : String) : String :=
  joinWithSpace ((splitWsWords (collapseSeparators sectionId.data false)).map capitalizeWord)

/-! ## Data model (`DocsManifestItem`, `DocsPage`, `DocsData`, lines 3-39) -/

structure DocsPageHeadingM where
  depth : Nat
  slug : String
  text : String
deriving DecidableEq

structure DocsItemM where
  slug : String
  title : String
  sourcePath : String
deriving DecidableEq

structure DocsPageM where
  slug : String
  title : String
  sourcePath : String
  sectionId : String
  sectionLabel : String
  content : String
  html : String
  headings : List DocsPageHeadingM
  sourceUrl : String
deriving DecidableEq

structure DocsSectionM where
  id : String
  label : String
  items : List DocsItemM
deriving DecidableEq

structure DocsDataM where
  name : String
  branch : String
  docsJsonUrl : String
  sections : List DocsSectionM
  pages : List DocsPageM
  firstSlug : Option String
deriving DecidableEq

/-- A manifest value: a single source path or a list of them (`DocsConfig`,
line 3). -/
inductive ConfigValue where
  | str (s : String)
  | list (xs : List String)
deriving DecidableEq

/-- `Array.isArray(entries) ? entries : [entries]` (line 854). -/
def entryList : ConfigValue → List String
  | .str s => [s]
  | .list xs => xs

/-- The effectful collaborators of `loadDocsFromRemote`: the source fetcher
(`fetchDocFromCandidates`, returning resolved URL and body), the API-reference
synthesizer (`buildApiReferenceMarkdown`, which can throw on malformed JSON),
the markdown renderer plus HTML post-processing (content and resolved source
URL to final html and headings), and title derivation (`titleFromMarkdown`). -/
structure BuildCtx where
  fetchDoc : String → Except LoadError (String × String)
  buildApi : String → String → Except LoadError String
  render : String → String → String × List DocsPageHeadingM
  titleOf : String → String → String

/-- `DOCS_JSON_URL` (line 44), with the template constants substituted. -/
def docsJsonUrlConst : String :=
  "https://raw.githubusercontent.com/pinchtab/pinchtab/refs/heads/main/docs/index.json"

/-- The mutable state of the `loadDocsFromRemote` walk: the global seen-slug
set (line 849) and the source-path-to-page map (line 850), both in insertion
order. -/
structure LoadState where
  seenSlugs : List String
  pagesMap : List (String × DocsPageM)
deriving DecidableEq

/-- One iteration of the inner `for (const rawSourcePath of entryList)` loop
(lines 857-896).  Returns the new state and the navigation item pushed onto
`sectionItems` (`none` when the entry is skipped). -/
def processEntry (ctx : BuildCtx) (sectionId : String) (st : LoadState) (raw : String) :
    Except LoadError (LoadState × Option DocsItemM) :=
  match normalizeSourcePathE raw with
  | .error e => .error e
  | .ok sourcePath =>
    match isTemporarilySkippedDocE sourcePath with
    | .error e => .error e
    | .ok true => .ok (st, none)
    | .ok false =>
      match st.pagesMap.lookup sourcePath with
      | some page => .ok (st, some ⟨page.slug, page.title, page.sourcePath⟩)
      | none =>
        match ctx.fetchDoc sourcePath with
        | .error e => .error e
        | .ok (sourceUrl, rawContent) =>
          match isApiReferenceJsonE sourcePath with
          | .error e => .error e
          | .ok isApi =>
            match (if isApi then ctx.buildApi rawContent sourcePath else .ok rawContent) with
            | .error e => .error e
            | .ok content =>
              let rendered := ctx.render content sourceUrl
              let title := ctx.titleOf content sourcePath
              let slugSeen := makeUniqueSlug (slugFromPath sourcePath) st.seenSlugs
              let page : DocsPageM :=
                ⟨slugSeen.1, title, sourcePath, sectionId, sectionLabelFn sectionId,
                  content, rendered.1, rendered.2, sourceUrl⟩
              .ok (⟨slugSeen.2, st.pagesMap ++ [(sourcePath, page)]⟩,
                some ⟨slugSeen.1, title, sourcePath⟩)

/-- The inner loop over one section entry list, collecting `sectionItems`. -/
def processEntries (ctx : BuildCtx) (sectionId : String) :
    LoadState → List String → Except LoadError (LoadState × List DocsItemM)
  | st, [] => .ok (st, [])
  | st, raw :: rest =>
    match processEntry ctx sectionId st raw with
    | .error e => .error e
    | .ok (st1, item?) =>
      match processEntries ctx sectionId st1 rest with
      | .error e => .error e
      | .ok (st2, items) => .ok (st2, item?.toList ++ items)

/-- The outer loop over `Object.entries(config)` (lines 853-905); a section is
emitted only when it resolved at least one item (line 898). -/
def processSections (ctx : BuildCtx) :
    LoadState → List (String × ConfigValue) → Except LoadError (LoadState × List DocsSectionM)
  | st, [] => .ok (st, [])
  | st, (sectionId, v) :: rest =>
    match processEntries ctx sectionId st (entryList v) with
    | .error e => .error e
    | .ok (st1, items) =>
      match processSections ctx st1 rest with
      | .error e => .error e
      | .ok (st2, secs) =>
        .ok (st2, (if items.isEmpty then [] else [⟨sectionId, sectionLabelFn sectionId, items⟩]) ++ secs)

/-- `loadDocsFromRemote` (lines 844-921) after the manifest has been fetched
and validated; `pages` is the map's value list, an empty result is fatal, and
`firstSlug` is the first item of the flattened section items. -/
def runLoadDocs (ctx : BuildCtx) (config : List (String × ConfigValue)) :
    Except LoadError DocsDataM :=
  match processSections ctx ⟨[], []⟩ config with
  | .error e => .error e
  | .ok (st, sections) =>
    let pages := st.pagesMap.map fun kv => kv.2
    if pages.isEmpty then .error .emptyResult
    else
      .ok ⟨"PinchTab", "main", docsJsonUrlConst, sections, pages,
        ((sections.flatMap fun sec => sec.items).head?.map fun it => it.slug)⟩

/-- The first section (in manifest order) one of whose raw entries normalizes
to the given source path. -/
def firstReferencingSection : List (String × ConfigValue) → String → Option String
  | [], _ => none
  | (sectionId, v) :: rest, p =>
    if (entryList v).any fun raw => normStr raw == p then some sectionId
    else firstReferencingSection rest p

/-! ## Code-block classification (`looksLikeAsciiDiagram`, lines 475-489, and
the dispatch order of `transformDocsCodeBlocks`, lines 533-555)

The decoded code text of a `<pre><code>` block is classified by the if-chain
of the replacer callback: ASCII diagram first, then shell by language tag,
then JSON by language tag, otherwise the block is left as is.  The language
tag is the lowercased capture of `extractCodeLanguage` (or `none`), passed
here as a parameter. -/

/-- `replace(/\r\n/g, "\n")`: a left-to-right scan replacing every CRLF
pair. -/
def crlfToLfChars : List Char → List Char
  | '\r' :: '\n' :: rest => '\n' :: crlfToLfChars rest
  | c :: rest => c :: crlfToLfChars rest
  | [] => []

/-- `rawCode.replace(/\r\n/g, "\n").trim()` (line 476). -/
def diagramNormalized (rawCode : String) : String := ⟨jsTrimChars (crlfToLfChars rawCode.data)⟩

/-- `normalizedCode.split("\n")` (line 477). -/
def diagramLines (rawCode : String) : List String :=
  splitOnChar '\n' (diagramNormalized rawCode)

def boxDrawingChars : List Char :=
  ['┌', '┐', '└', '┘', '├', '┤', '┬', '┴', '┼', '│', '─', '═', '╔', '╗', '╚', '╝', '║']

def arrowCharsList : List Char := ['↓', '↑', '←', '→']

/-- Count of box-drawing/line characters (line 482). -/
def boxCharCount (rawCode : String) : Nat :=
  ((diagramNormalized rawCode).data.filter fun c => boxDrawingChars.contains c).length

/-- Count of arrow characters (line 483). -/
def arrowCount (rawCode : String) : Nat :=
  ((diagramNormalized rawCode).data.filter fun c => arrowCharsList.contains c).length

/-- JS `\w`: ASCII letters, digits, underscore. -/
def isWordChar (c : Char) : Bool := c.isAlphanum || c == '_'

def shellCommandWords : List String :=
  ["curl", "npm", "pnpm", "bun", "node", "go", "git", "docker", "kubectl", "python",
   "pip", "cd", "ls", "cp", "mv", "rm", "cat", "echo", "export", "sudo"]

/-- Case-insensitive match of a (lowercase) word against the head of a
character list, returning the remainder on success. -/
def ciMatchWord : List Char → List Char → Option (List Char)
  | [], cs => some cs
  | _ :: _, [] => none
  | w :: ws, c :: cs => if c.toLower = w then ciMatchWord ws cs else none

/-- The per-line test `/^\s*(curl|…|sudo)\b/i` (lines 484-486): optional
leading whitespace, one of the fixed command words case-insensitively, then a
word boundary. -/
def lineIsCommandLike (line : String) : Bool :=
  let rest := line.data.dropWhile Char.isWhitespace
  shellCommandWords.any fun w =>
    match ciMatchWord w.data rest with
    | none => false
    | some remaining =>
      match remaining.head? with
      | none => true
      | some c => !(isWordChar c)

def commandLikeLineCount (rawCode : String) : Nat :=
  ((diagramLines rawCode).filter lineIsCommandLike).length

/-- `looksLikeAsciiDiagram` (lines 475-489). -/
def looksLikeAsciiDiagram (rawCode : String) : Bool :=
  if (diagramLines rawCode).length < 4 then false
  else
    (decide (6 ≤ boxCharCount rawCode) || decide (2 ≤ arrowCount rawCode)) &&
      decide (commandLikeLineCount rawCode = 0)

inductive CodeBlockKind where
  | diagram
  | shell
  | json
  | plain
deriving DecidableEq

def shellLanguages : List String := ["bash", "sh", "zsh", "shell", "console"]

def jsonLanguages : List String := ["json", "jsonc", "geojson"]

/-- `isShellLanguage` (lines 390-392); the language, when present, is already
lowercased by `extractCodeLanguage`. -/
def isShellLanguage : Option String → Bool
  | some l => shellLanguages.contains l
  | none => false

/-- `isJsonLanguage` (lines 394-396). -/
def isJsonLanguage : Option String → Bool
  | some l => jsonLanguages.contains l
  | none => false

/-- The classification order of the replacer in `transformDocsCodeBlocks`
(lines 536-553): diagram check first, then shell, then JSON, else untouched. -/
def classifyCodeBlock (language : Option String) (decoded : String) : CodeBlockKind :=
  if looksLikeAsciiDiagram decoded then .diagram
  else if isShellLanguage language then .shell
  else if isJsonLanguage language then .json
  else .plain

/-! ## API-reference index synthesis (`buildApiReferenceMarkdown`,
lines 229-271)

An endpoint after the parsing/sanitizing pass of lines 184-227: `method` and
`path` are the required strings (trimmed, method uppercased), `html` is the
HTML-only flag, and `cli` records whether `extractCliExample` finds a CLI
example for the endpoint (a nonempty `cliExample` field or a nested
`examples.cli` entry). -/

structure ApiEndpointM where
  method : String
  path : String
  html : Bool
  cli : Bool
deriving DecidableEq

/-- `String.prototype.localeCompare` is an environment boundary of the
model, like the fetcher and the URL resolver: its result depends on the ICU
locale data of the runtime, so the sort of `buildApiReferenceMarkdown` is
modelled with the comparator passed in as a parameter `lc : String → String
→ Int` (negative, zero, positive, as in JS).  ECMA-402 guarantees the
comparator of a collator is consistent: it is induced by a total preorder on
strings.  `ConsistentComparator` states those laws — totality and
transitivity of the nonpositive relation, and antisymmetry of the sign — and
every theorem about the sort quantifies over all comparators satisfying
them. -/
def ConsistentComparator (lc : String → String → Int) : Prop :=
  (∀ a b, lc a b ≤ 0 ∨ lc b a ≤ 0) ∧
  (∀ a b c, lc a b ≤ 0 → lc b c ≤ 0 → lc a c ≤ 0) ∧
  (∀ a b, lc a b < 0 ↔ 0 < lc b a)

/-- Sample sort keys for a concrete consistent comparator: primary key the
lowercased code points, tie broken with lowercase before uppercase. -/
def localeLowerKey (s : String) : List Char := s.data.map Char.toLower

def localeCaseKey (s : String) : List Char :=
  s.data.map fun c => if c.isUpper then '1' else '0'

def localeKey (s : String) : Lex (List Char × List Char) :=
  toLex (localeLowerKey s, localeCaseKey s)

/-- A concrete consistent comparator used to instantiate the abstract
theorems.  On strings made only of ASCII letters and `/` — such as the
fixtures below — it returns the same sign as the default-locale
`localeCompare` under the CLDR root collation (letters compare
case-insensitively first, lowercase before uppercase on a primary tie, `/`
sorts before alphanumerics); it is NOT claimed to match the root collation
on other punctuation, and no theorem relies on it beyond such strings. -/
def caseFoldCmp (a b : String) : Int :=
  if localeKey a < localeKey b then -1 else if localeKey b < localeKey a then 1 else 0

/-- The comparator of the `.sort` call on lines 231-235: compare paths with
`localeCompare`; when that returns zero, compare methods with it. -/
def endpointCmp (lc : String → String → Int) (a b : ApiEndpointM) : Int :=
  if lc a.path b.path ≠ 0 then lc a.path b.path else lc a.method b.method

/-- `a` may stay before `b` in the sorted output exactly when the comparator
does not require the opposite order. -/
def endpointLe (lc : String → String → Int) (a b : ApiEndpointM) : Bool :=
  decide (endpointCmp lc a b ≤ 0)

/-- Stable insertion into a sorted list: the new element goes after every
element that compares less-or-equal to it. -/
def insertStable (le : ApiEndpointM → ApiEndpointM → Bool) (a : ApiEndpointM) :
    List ApiEndpointM → List ApiEndpointM
  | [] => [a]
  | b :: rest => if le b a then b :: insertStable le a rest else a :: b :: rest

/-- Stable sort by a boolean comparator; for a transitive total comparator
this is the unique stable sort, hence the result of JS
`Array.prototype.sort` (stable per the ECMAScript spec). -/
def jsStableSort (le : ApiEndpointM → ApiEndpointM → Bool) (l : List ApiEndpointM) :
    List ApiEndpointM :=
  l.foldl (fun acc a => insertStable le a acc) []

/-- Lines 229-235: drop HTML-only endpoints and sort with the locale-aware
comparator. -/
def sortEndpoints (lc : String → String → Int) (endpoints : List ApiEndpointM) :
    List ApiEndpointM :=
  jsStableSort (endpointLe lc) (endpoints.filter fun e => !e.html)

/-- `buildPathAnchor` (lines 151-153). -/
def buildPathAnchor (path : String) : String := slugify path

/-- The anchor-assignment loop of lines 237-250: the first endpoint of each
distinct path claims an anchor, suffixing `-2`, `-3`, … while the candidate
is taken. -/
def assignAnchors : List ApiEndpointM → List String → List (String × String) → List (String × String)
  | [], _, acc => acc
  | e :: rest, used, acc =>
    if (acc.lookup e.path).isSome then assignAnchors rest used acc
    else
      let base := buildPathAnchor e.path
      let anchor :=
        if base ∈ used then suffixSlug base (findFreeSuffix used base 2 (used.length + 1))
        else base
      assignAnchors rest (used ++ [anchor]) (acc ++ [(e.path, anchor)])

def pathAnchorMap (lc : String → String → Int) (endpoints : List ApiEndpointM) :
    List (String × String) :=
  assignAnchors (sortEndpoints lc endpoints) [] []

/-- `pathAnchorMap.get(path) || buildPathAnchor(path)` (line 268); an empty
string is falsy in JS, hence the extra fallback. -/
def anchorFor (anchors : List (String × String)) (path : String) : String :=
  match anchors.lookup path with
  | some a => if a = "" then buildPathAnchor path else a
  | none => buildPathAnchor path

/-- One index-table row (line 269). -/
def renderIndexRow (anchors : List (String × String)) (e : ApiEndpointM) : String :=
  "| " ++ e.method ++ " | [" ++ e.path ++ "](#" ++ anchorFor anchors e.path ++ ") | " ++
    (if e.cli then "✓" else "X") ++ " |"

/-- The index rows of the synthesized markdown (lines 266-271), one string
per endpoint, in emitted order. -/
def apiIndexRows (lc : String → String → Int) (endpoints : List ApiEndpointM) :
    List String :=
  (sortEndpoints lc endpoints).map (renderIndexRow (pathAnchorMap lc endpoints))

/-- Strict lexicographic comparison of character lists by code point. -/
def cpLexLt : List Char → List Char → Bool
  | [], [] => false
  | [], _ :: _ => true
  | _ :: _, [] => false
  | a :: as1, b :: bs1 => if a < b then true else if b < a then false else cpLexLt as1 bs1

/-- Plain lexicographic (code-point) order on strings, the order named by the
claim ("sorted by path lexicographically"). -/
def cpLexLe (a b : String) : Bool := !(cpLexLt b.data a.data)

/-- The claim's ordering condition on the synthesized index: consecutive rows
carry lexicographically nondecreasing paths. -/
def pathsLexSorted (endpoints : List ApiEndpointM) : Prop :=
  List.Pairwise (fun a b => cpLexLe a.path b.path = true) endpoints

/-! ## Manifest schema validation (`isValidDocsConfig`, lines 812-823)

JSON values as parsed by `response.json()`.  In JS, `typeof v === "object"`
holds for objects, arrays and `null`; `!value` rejects `null` first; and
`Object.values` of an array is its element list — the definition below is the
faithful image of the source under these semantics. -/

inductive JsonValue where
  | null
  | bool (b : Bool)
  | num (n : Int)
  | str (s : String)
  | arr (xs : List JsonValue)
  | obj (entries : List (String × JsonValue))

/-- The per-entry check of lines 817-822: a string, or an array whose every
element is a string (an empty array passes `every`). -/
def isStringOrStringArray : JsonValue → Bool
  | .str _ => true
  | .arr xs => xs.all fun x => match x with | .str _ => true | _ => false
  | _ => false

/-- `isValidDocsConfig` (lines 812-823). -/
def isValidDocsConfig : JsonValue → Bool
  | .obj entries => (entries.map fun kv => kv.2).all isStringOrStringArray
  | .arr xs => xs.all isStringOrStringArray
  | _ => false

/-- The schema gate of `fetchDocsConfig` (lines 831-834). -/
def validateDocsConfig (v : JsonValue) : Except LoadError JsonValue :=
  if isValidDocsConfig v then .ok v else .error .configSchema

/-- The claim's validation predicate, following its words: an object whose
every value is a string or a sequence of strings, where a present sequence
may not be empty ("a sequence may be empty only if the key is absent"). -/
def claimDocsConfigValue : JsonValue → Bool
  | .str _ => true
  | .arr xs => !xs.isEmpty && xs.all fun x => match x with | .str _ => true | _ => false
  | _ => false

def claimDocsConfigValid : JsonValue → Bool
  | .obj entries => (entries.map fun kv => kv.2).all claimDocsConfigValue
  | _ => false

/-! ## Image source rewriting (`shouldResolveRelativeAssetUrl`,
`resolveAssetUrl`, and the per-tag replacer of `transformDocsImageSources`,
lines 645-680)

`transformDocsImageSources` maps the replacer below over every
`/<img\b[^>]*>/gi` match of the page html; the JS `new URL(url, base)`
resolution is a parameter (`none` models the `catch` branch). -/

def srcQuoteD : Char := Char.ofNat 34

def srcQuoteS : Char := Char.ofNat 39

/-- Attempt to match `src=(["'])([^"']+)\1` (case-insensitive on `src`) at
the head of the character list; returns the matched text and the captured
value. -/
def matchSrcHere : List Char → Option (List Char × List Char)
  | c1 :: c2 :: c3 :: c4 :: q :: rest =>
    if c1.toLower = 's' ∧ c2.toLower = 'r' ∧ c3.toLower = 'c' ∧ c4 = '=' ∧
        (q = srcQuoteD ∨ q = srcQuoteS) then
      let value := rest.takeWhile fun c => ¬(c = srcQuoteD ∨ c = srcQuoteS)
      if value = [] then none
      else
        match rest.drop value.length with
        | qEnd :: _ =>
          if qEnd = q then some (c1 :: c2 :: c3 :: c4 :: q :: (value ++ [q]), value)
          else none
        | [] => none
    else none
  | _ => none

/-- Left-to-right scan for the first match of `/\bsrc=(["'])([^"']+)\1/i`;
the Bool records whether the previous character was a word character (the
`\b` test). -/
def findSrcAux : List Char → Bool → Option (List Char × List Char)
  | [], _ => none
  | c :: rest, prevWord =>
    if prevWord then findSrcAux rest (isWordChar c)
    else
      match matchSrcHere (c :: rest) with
      | some r => some r
      | none => findSrcAux rest (isWordChar c)

/-- `imgTag.match(/\bsrc=(["'])([^"']+)\1/i)` (line 667). -/
def findSrcMatch (tag : String) : Option (List Char × List Char) :=
  findSrcAux tag.data false

def isSchemeTailChar (c : Char) : Bool := c.isAlphanum || c == '+' || c == '.' || c == '-'

/-- Scan for `[a-z0-9+.-]*:` after a leading ASCII letter. -/
def schemeScan : List Char → Bool
  | [] => false
  | c :: rest => if c = ':' then true else if isSchemeTailChar c then schemeScan rest else false

/-- The regex `/^(?:[a-z][a-z0-9+.-]*:|\/\/)/i` (line 650): a URL scheme or a
protocol-relative `//` prefix. -/
def hasUrlSchemeOrNetworkPath (s : String) : Bool :=
  match s.data with
  | [] => false
  | c :: rest =>
    (c.isAlpha && schemeScan rest) || (decide (c = '/') && decide (rest.head? = some '/'))

/-- `shouldResolveRelativeAssetUrl` (lines 645-652): the checks are applied
to the whitespace-trimmed source; a leading `/` or `#` of the trimmed value
is exactly `startsWith` on it. -/
def shouldResolveRelativeAssetUrl (url : String) : Bool :=
  let normalized := jsTrim url
  match normalized.data with
  | [] => false
  | c :: _ =>
    if c = '/' then false
    else if c = '#' then false
    else if hasUrlSchemeOrNetworkPath normalized then false
    else true

/-- `resolveAssetUrl` (lines 654-663); `resolveUrl` models `new URL(url,
sourceUrl).toString()` with `none` for the catch branch. -/
def resolveAssetUrl (resolveUrl : String → String → Option String) (url sourceUrl : String) :
    String :=
  if shouldResolveRelativeAssetUrl url then
    match resolveUrl url sourceUrl with
    | some resolved => resolved
    | none => url
  else url

/-- JS `String.prototype.replace` with a plain-string pattern: replace the
first occurrence only. -/
def replaceFirstList (pat repl : List Char) : List Char → List Char
  | [] => []
  | c :: rest =>
    if pat.isPrefixOf (c :: rest) then repl ++ (c :: rest).drop pat.length
    else c :: replaceFirstList pat repl rest

/-- The attribute text `src="resolved"` substituted on line 678. -/
def srcAttrChars (resolved : String) : List Char :=
  "src=".data ++ srcQuoteD :: (resolved.data ++ [srcQuoteD])

/-- The per-tag replacer of `transformDocsImageSources` (lines 666-679). -/
def transformDocsImgTag (resolveUrl : String → String → Option String)
    (sourceUrl imgTag : String) : String :=
  match findSrcMatch imgTag with
  | none => imgTag
  | some (matched, srcChars) =>
    let originalSrc : String := ⟨srcChars⟩
    let resolvedSrc := resolveAssetUrl resolveUrl originalSrc sourceUrl
    if resolvedSrc = originalSrc then imgTag
    else ⟨replaceFirstList matched (srcAttrChars resolvedSrc) imgTag.data⟩

/-- Whether the first character is the given one (JS `startsWith` for a
one-character search string). -/
def strHeadIs (c : Char) (s : String) : Bool := s.data.head? == some c

/-- The absolute/rooted/fragment condition exactly as the claim words it, on
the raw (untrimmed) source value. -/
def claimImgUnchangedCond (src : String) : Bool :=
  hasUrlSchemeOrNetworkPath src || strHeadIs '/' src || strHeadIs '#' src

/-- Whether a string begins with the two characters `./`. -/
def startsWithDotSlash (s : String) : Bool :=
  match s.data with
  | c1 :: c2 :: _ => decide (c1 = '.' ∧ c2 = '/')
  | _ => false

/-! ## Concrete fixtures used by witnesses and counterexamples -/

/-- A deterministic stand-in for the effectful collaborators: every fetch
succeeds with a fixed body, the renderer is the identity on content, titles
are constant. -/
def ctxA : BuildCtx :=
  ⟨fun p => .ok ("https://example.com/docs/" ++ p, "# Title"),
    fun raw _ => .ok raw,
    fun content _ => (content, []),
    fun _ _ => "T"⟩

/-- Two sections referencing the same source path. -/
def cfgDedup : List (String × ConfigValue) := [("a", .str "p.md"), ("b", .list ["p.md"])]

def itemP : DocsItemM := ⟨"p", "T", "p.md"⟩

def pageP : DocsPageM :=
  ⟨"p", "T", "p.md", "a", "A", "# Title", "# Title", [], "https://example.com/docs/p.md"⟩

def dataDedup : DocsDataM :=
  ⟨"PinchTab", "main", docsJsonUrlConst,
    [⟨"a", "A", [itemP]⟩, ⟨"b", "B", [itemP]⟩], [pageP], some "p"⟩

/-- Four paths: two with base slug `x`, then two with base slug `x-2`. -/
def cfgSlugs : List (String × ConfigValue) :=
  [("guide", .list ["x.md", "sub/x.md", "x-2.md", "sub/x-2.md"])]

/-- A manifest whose every entry is in the temporary skip-list. -/
def cfgSkipOnly : List (String × ConfigValue) :=
  [("a", .str "references/api-reference.json"),
   ("b", .list ["./references/api-reference.json"])]

/-- A manifest whose first entry is a traversal path. -/
def cfgTraversal : List (String × ConfigValue) := [("s", .str "../secret.md")]

/-- Two endpoints whose paths differ only in letter case. -/
def epsCase : List ApiEndpointM :=
  [⟨"GET", "/B", false, false⟩, ⟨"GET", "/a", false, false⟩]

/-- Resolver used by the image-transform counterexample. -/
def resolveFixed : String → String → Option String :=
  fun _ _ => some "https://example.com/x.png"

def imgTagPadded : String := "<img src=\" /x.png\">"

/-- A four-line box diagram. -/
def diagramFixture : String := "┌──┐\n│ab│\n│cd│\n└──┘"

/-- Fixtures for the image-rewrite witness. -/
def imgTagPlain : String := "<img src=\"a.png\">"

def resolveToA : String → String → Option String := fun _ _ => some "https://example.com/a.png"

/-! ## Proof invariants -/

/-- Invariant of the `loadDocsFromRemote` walk state: page-map keys are
distinct, every stored page records its own key as `sourcePath`, the
assigned slugs are distinct, and every assigned slug is in the seen-slug
set. -/
def StateInv (st : LoadState) : Prop :=
  (st.pagesMap.map fun kv => kv.1).Nodup ∧
  (∀ kv ∈ st.pagesMap, kv.2.sourcePath = kv.1) ∧
  (st.pagesMap.map fun kv => kv.2.slug).Nodup ∧
  (∀ kv ∈ st.pagesMap, kv.2.slug ∈ st.seenSlugs)

/-- A navigation item is backed by an entry of the page map: the entry is
keyed by the item's source path and agrees with it on slug and title. -/
def ItemOk (m : List (String × DocsPageM)) (it : DocsItemM) : Prop :=
  ∃ kv, kv ∈ m ∧ kv.1 = it.sourcePath ∧ kv.2.sourcePath = it.sourcePath ∧
    kv.2.slug = it.slug ∧ kv.2.title = it.title

/-! # Theorems -/

/-! ## Decimal numerals and suffix slugs -/

theorem decDigitVal_decDigit (n : Nat) (h : n < 10) : decDigitVal (decDigit n) = n := by
  interval_cases n <;> rfl

theorem decValue_decDigitsAux :
    ∀ fuel n, n < fuel → decValue (decDigitsAux fuel n) = n := by
  intro fuel
  induction fuel with
  | zero => intro n h; omega
  | succ fuel ih =>
    intro n h
    by_cases h10 : n < 10
    · simp only [decDigitsAux, if_pos h10, decValue, List.foldl]
      have := decDigitVal_decDigit n h10
      omega
    · have hpos : 0 < n := by omega
      have hdiv : n / 10 < n := Nat.div_lt_self hpos (by omega)
      simp only [decDigitsAux, if_neg h10, decValue, List.foldl_append, List.foldl]
      have hih := ih (n / 10) (by omega)
      simp only [decValue] at hih
      rw [hih, decDigitVal_decDigit (n % 10) (Nat.mod_lt n (by omega))]
      omega

theorem decValue_decDigits (n : Nat) : decValue (decDigits n) = n :=
  decValue_decDigitsAux (n + 1) n (Nat.lt_succ_self n)

theorem natToDec_injective : Function.Injective natToDec := by
  intro a b h
  have hd : decDigits a = decDigits b := congrArg String.data h
  have := decValue_decDigits a
  rw [hd, decValue_decDigits b] at this
  exact this.symm

theorem suffixSlug_inj (baseSlug : String) {j k : Nat}
    (h : suffixSlug baseSlug j = suffixSlug baseSlug k) : j = k := by
  have hd := congrArg String.data h
  simp only [suffixSlug, String.data_append, List.append_assoc] at hd
  have h1 := List.append_cancel_left hd
  simp only [List.singleton_append, List.cons.injEq, true_and] at h1
  exact natToDec_injective (String.ext h1)

/-! ## `makeUniqueSlug` -/

theorem findFreeSuffix_spec (seen : List String) (baseSlug : String) :
    ∀ fuel k, (∃ j, k ≤ j ∧ j < k + fuel ∧ suffixSlug baseSlug j ∉ seen) →
      k ≤ findFreeSuffix seen baseSlug k fuel ∧
      suffixSlug baseSlug (findFreeSuffix seen baseSlug k fuel) ∉ seen ∧
      ∀ j, k ≤ j → j < findFreeSuffix seen baseSlug k fuel → suffixSlug baseSlug j ∈ seen := by
  intro fuel
  induction fuel with
  | zero =>
    intro k h
    obtain ⟨j, hj1, hj2, _⟩ := h
    omega
  | succ fuel ih =>
    intro k hex
    by_cases hmem : suffixSlug baseSlug k ∈ seen
    · simp only [findFreeSuffix, if_pos hmem]
      have hex2 : ∃ j, k + 1 ≤ j ∧ j < (k + 1) + fuel ∧ suffixSlug baseSlug j ∉ seen := by
        obtain ⟨j, hj1, hj2, hj3⟩ := hex
        have hne : j ≠ k := fun hjk => hj3 (hjk ▸ hmem)
        exact ⟨j, by omega, by omega, hj3⟩
      obtain ⟨h1, h2, h3⟩ := ih (k + 1) hex2
      refine ⟨by omega, h2, ?_⟩
      intro j hj hjlt
      by_cases hjk : j = k
      · exact hjk ▸ hmem
      · exact h3 j (by omega) hjlt
    · simp only [findFreeSuffix, if_neg hmem]
      exact ⟨Nat.le_refl _, hmem, fun j h1 h2 => absurd h2 (by omega)⟩

theorem exists_free_suffix (seen : List String) (baseSlug : String) :
    ∃ j, 2 ≤ j ∧ j < 2 + (seen.length + 1) ∧ suffixSlug baseSlug j ∉ seen := by
  by_contra hcon
  push_neg at hcon
  have hsub : ((List.range (seen.length + 1)).map fun i => suffixSlug baseSlug (2 + i)) ⊆ seen := by
    intro x hx
    simp only [List.mem_map, List.mem_range] at hx
    obtain ⟨i, hi, rfl⟩ := hx
    exact hcon (2 + i) (by omega) (by omega)
  have hinj : Function.Injective fun i => suffixSlug baseSlug (2 + i) := by
    intro i1 i2 hi
    have := suffixSlug_inj baseSlug hi
    omega
  have hnodup : ((List.range (seen.length + 1)).map fun i => suffixSlug baseSlug (2 + i)).Nodup :=
    (List.nodup_range _).map hinj
  have hle := (List.subperm_of_subset hnodup hsub).length_le
  simp only [List.length_map, List.length_range] at hle
  omega

theorem makeUniqueSlug_snd (baseSlug : String) (seen : List String) :
    (makeUniqueSlug baseSlug seen).2 = seen ++ [(makeUniqueSlug baseSlug seen).1] := by
  unfold makeUniqueSlug
  by_cases h : baseSlug ∈ seen <;> simp [h]

theorem makeUniqueSlug_of_not_mem {baseSlug : String} {seen : List String}
    (h : baseSlug ∉ seen) : (makeUniqueSlug baseSlug seen).1 = baseSlug := by
  simp [makeUniqueSlug, h]

theorem makeUniqueSlug_of_mem {baseSlug : String} {seen : List String}
    (h : baseSlug ∈ seen) :
    ∃ k, 2 ≤ k ∧ (makeUniqueSlug baseSlug seen).1 = suffixSlug baseSlug k ∧
      suffixSlug baseSlug k ∉ seen ∧
      ∀ j, 2 ≤ j → j < k → suffixSlug baseSlug j ∈ seen := by
  obtain ⟨h1, h2, h3⟩ :=
    findFreeSuffix_spec seen baseSlug (seen.length + 1) 2 (exists_free_suffix seen baseSlug)
  refine ⟨findFreeSuffix seen baseSlug 2 (seen.length + 1), h1, ?_, h2, h3⟩
  simp [makeUniqueSlug, h]

theorem makeUniqueSlug_not_mem (baseSlug : String) (seen : List String) :
    (makeUniqueSlug baseSlug seen).1 ∉ seen := by
  by_cases h : baseSlug ∈ seen
  · obtain ⟨k, _, hk, hfree, _⟩ := makeUniqueSlug_of_mem h
    rw [hk]
    exact hfree
  · rw [makeUniqueSlug_of_not_mem h]
    exact h

/-! ## Association-list lookups -/

theorem lookup_some_mem {α β : Type} [BEq α] [LawfulBEq α] :
    ∀ {l : List (α × β)} {k : α} {v : β}, l.lookup k = some v → (k, v) ∈ l := by
  intro l
  induction l with
  | nil => intro k v h; simp [List.lookup] at h
  | cons kv rest ih =>
    intro k v h
    obtain ⟨k1, v1⟩ := kv
    simp only [List.lookup] at h
    by_cases hbeq : k = k1
    · subst hbeq
      simp only [beq_self_eq_true] at h
      cases h
      exact List.mem_cons_self _ _
    · have hb : (k == k1) = false := beq_false_of_ne hbeq
      rw [hb] at h
      exact List.mem_cons_of_mem _ (ih h)

theorem lookup_none_keys {α β : Type} [BEq α] [LawfulBEq α] :
    ∀ {l : List (α × β)} {k : α}, l.lookup k = none → k ∉ l.map fun kv => kv.1 := by
  intro l
  induction l with
  | nil => intro k _ h; simp at h
  | cons kv rest ih =>
    intro k h hmem
    obtain ⟨k1, v1⟩ := kv
    simp only [List.lookup] at h
    by_cases hbeq : k = k1
    · subst hbeq; simp [beq_self_eq_true] at h
    · have hb : (k == k1) = false := beq_false_of_ne hbeq
      rw [hb] at h
      simp only [List.map_cons, List.mem_cons] at hmem
      rcases hmem with h1 | h1
      · exact hbeq h1
      · exact ih h h1

/-! ## The manifest walk: case analysis and invariants -/

theorem normalizeSourcePathE_ok_val {p q : String} (h : normalizeSourcePathE p = .ok q) :
    q = normStr p := by
  unfold normalizeSourcePathE at h
  dsimp only at h
  split at h
  · exact absurd h (by simp)
  · split at h
    · exact absurd h (by simp)
    · cases h; rfl

theorem processEntry_cases {ctx : BuildCtx} {sid : String} {st : LoadState} {raw : String}
    {st1 : LoadState} {item? : Option DocsItemM}
    (h : processEntry ctx sid st raw = .ok (st1, item?)) :
    (st1 = st ∧ item? = none ∧
      ∃ key, normalizeSourcePathE raw = .ok key ∧ isTemporarilySkippedDocE key = .ok true) ∨
    (st1 = st ∧ ∃ key page, normalizeSourcePathE raw = .ok key ∧
      isTemporarilySkippedDocE key = .ok false ∧ st.pagesMap.lookup key = some page ∧
      item? = some ⟨page.slug, page.title, page.sourcePath⟩) ∨
    (∃ key page, normalizeSourcePathE raw = .ok key ∧ isTemporarilySkippedDocE key = .ok false ∧
      st.pagesMap.lookup key = none ∧
      page.sourcePath = key ∧ page.sectionId = sid ∧ page.sectionLabel = sectionLabelFn sid ∧
      page.slug = (makeUniqueSlug (slugFromPath key) st.seenSlugs).1 ∧
      st1 = ⟨(makeUniqueSlug (slugFromPath key) st.seenSlugs).2, st.pagesMap ++ [(key, page)]⟩ ∧
      item? = some ⟨page.slug, page.title, key⟩) := by
  unfold processEntry at h
  dsimp only at h
  split at h
  · exact absurd h (by simp)
  next key hkey =>
    split at h
    · exact absurd h (by simp)
    · rename_i hskip
      cases h
      exact Or.inl ⟨rfl, rfl, key, hkey, hskip⟩
    · rename_i hskip
      split at h
      next page hpage =>
        cases h
        exact Or.inr (Or.inl ⟨rfl, key, page, hkey, hskip, hpage, rfl⟩)
      next hpage =>
        split at h
        · exact absurd h (by simp)
        next sourceUrl rawContent hfetch =>
          split at h
          · exact absurd h (by simp)
          next isApi hapi =>
            split at h
            · exact absurd h (by simp)
            next content hcontent =>
              cases h
              exact Or.inr (Or.inr ⟨key, _, hkey, hskip, hpage, rfl, rfl, rfl, rfl, rfl, rfl⟩)

theorem processEntry_append {ctx : BuildCtx} {sid : String} {st : LoadState} {raw : String}
    {st1 : LoadState} {item? : Option DocsItemM}
    (h : processEntry ctx sid st raw = .ok (st1, item?)) :
    (∃ kvs, st1.pagesMap = st.pagesMap ++ kvs) ∧
      (∃ slugs, st1.seenSlugs = st.seenSlugs ++ slugs) := by
  rcases processEntry_cases h with ⟨rfl, _, _⟩ | ⟨rfl, _⟩ |
    ⟨key, page, _, _, _, _, _, _, _, hst, _⟩
  · exact ⟨⟨[], by simp⟩, ⟨[], by simp⟩⟩
  · exact ⟨⟨[], by simp⟩, ⟨[], by simp⟩⟩
  · subst hst
    exact ⟨⟨[(key, page)], rfl⟩,
      ⟨[(makeUniqueSlug (slugFromPath key) st.seenSlugs).1], makeUniqueSlug_snd _ _⟩⟩

theorem processEntry_inv {ctx : BuildCtx} {sid : String} {st : LoadState} {raw : String}
    {st1 : LoadState} {item? : Option DocsItemM}
    (h : processEntry ctx sid st raw = .ok (st1, item?)) (hinv : StateInv st) : StateInv st1 := by
  obtain ⟨hkeys, hsp, hslugs, hseen⟩ := hinv
  rcases processEntry_cases h with ⟨rfl, _, _⟩ | ⟨rfl, _⟩ |
    ⟨key, page, _, _, hlook, hsp2, _, _, hslug, hst, _⟩
  · exact ⟨hkeys, hsp, hslugs, hseen⟩
  · exact ⟨hkeys, hsp, hslugs, hseen⟩
  · subst hst
    have hkeynew : key ∉ st.pagesMap.map fun kv => kv.1 := lookup_none_keys hlook
    have hslugnew : (makeUniqueSlug (slugFromPath key) st.seenSlugs).1 ∉
        st.pagesMap.map fun kv => kv.2.slug := by
      intro hmem
      obtain ⟨kv, hkv, heq⟩ := List.mem_map.1 hmem
      exact makeUniqueSlug_not_mem (slugFromPath key) st.seenSlugs (heq ▸ hseen kv hkv)
    refine ⟨?_, ?_, ?_, ?_⟩
    · rw [List.map_append]
      exact List.nodup_append.2 ⟨hkeys, List.nodup_singleton _, by simpa using hkeynew⟩
    · intro kv hkv
      rcases List.mem_append.1 hkv with hin | hin
      · exact hsp kv hin
      · simp at hin
        subst hin
        exact hsp2
    · rw [List.map_append]
      refine List.nodup_append.2 ⟨hslugs, List.nodup_singleton _, ?_⟩
      simpa [hslug] using hslugnew
    · intro kv hkv
      rw [makeUniqueSlug_snd]
      rcases List.mem_append.1 hkv with hin | hin
      · exact List.mem_append_left _ (hseen kv hin)
      · simp at hin
        subst hin
        rw [hslug]
        exact List.mem_append_right _ (by simp)

theorem processEntry_item {ctx : BuildCtx} {sid : String} {st : LoadState} {raw : String}
    {st1 : LoadState} {it : DocsItemM}
    (h : processEntry ctx sid st raw = .ok (st1, some it)) (hinv : StateInv st) :
    ItemOk st1.pagesMap it := by
  obtain ⟨_, hsp, _, _⟩ := hinv
  rcases processEntry_cases h with ⟨_, hnone, _⟩ | ⟨rfl, key, page, _, _, hlook, hsome⟩ |
    ⟨key, page, _, _, _, hsp2, _, _, _, hst, hsome⟩
  · simp at hnone
  · have hmem := lookup_some_mem hlook
    have hkeyeq : page.sourcePath = key := hsp (key, page) hmem
    cases hsome
    exact ⟨(key, page), hmem, hkeyeq.symm, rfl, rfl, rfl⟩
  · subst hst
    cases hsome
    exact ⟨(key, page), List.mem_append_right _ (by simp), rfl, hsp2, rfl, rfl⟩

theorem processEntries_spec {ctx : BuildCtx} {sid : String} :
    ∀ {entries : List String} {st st1 : LoadState} {items : List DocsItemM},
      processEntries ctx sid st entries = .ok (st1, items) → StateInv st →
      StateInv st1 ∧ (∃ kvs, st1.pagesMap = st.pagesMap ++ kvs) ∧
        (∃ slugs, st1.seenSlugs = st.seenSlugs ++ slugs) ∧
        ∀ it ∈ items, ItemOk st1.pagesMap it := by
  intro entries
  induction entries with
  | nil =>
    intro st st1 items h hinv
    unfold processEntries at h
    cases h
    exact ⟨hinv, ⟨[], by simp⟩, ⟨[], by simp⟩, by simp⟩
  | cons raw rest ih =>
    intro st st1 items h hinv
    unfold processEntries at h
    split at h
    · exact absurd h (by simp)
    next stMid itemQ hhead =>
      split at h
      · exact absurd h (by simp)
      next st2 items2 htail =>
        cases h
        obtain ⟨hinvMid, ⟨kvs1, hkv1⟩, ⟨sl1, hsl1⟩, hitems2⟩ :=
          ih htail (processEntry_inv hhead hinv)
        obtain ⟨⟨kvs0, hkv0⟩, ⟨sl0, hsl0⟩⟩ := processEntry_append hhead
        refine ⟨hinvMid, ⟨kvs0 ++ kvs1, by rw [hkv1, hkv0, List.append_assoc]⟩,
          ⟨sl0 ++ sl1, by rw [hsl1, hsl0, List.append_assoc]⟩, ?_⟩
        intro it hit
        rcases List.mem_append.1 hit with hin | hin
        · cases hq : itemQ with
          | none => rw [hq] at hin; simp at hin
          | some it0 =>
            rw [hq] at hin
            simp at hin
            subst hin
            rw [hq] at hhead
            obtain ⟨kv, hkvmem, h1, h2, h3, h4⟩ := processEntry_item hhead hinv
            exact ⟨kv, by rw [hkv1]; exact List.mem_append_left _ hkvmem, h1, h2, h3, h4⟩
        · exact hitems2 it hin

theorem processSections_spec {ctx : BuildCtx} :
    ∀ {cfg : List (String × ConfigValue)} {st st1 : LoadState} {secs : List DocsSectionM},
      processSections ctx st cfg = .ok (st1, secs) → StateInv st →
      StateInv st1 ∧ (∃ kvs, st1.pagesMap = st.pagesMap ++ kvs) ∧
        ∀ sec ∈ secs, ∀ it ∈ sec.items, ItemOk st1.pagesMap it := by
  intro cfg
  induction cfg with
  | nil =>
    intro st st1 secs h hinv
    unfold processSections at h
    cases h
    exact ⟨hinv, ⟨[], by simp⟩, by simp⟩
  | cons entry rest ih =>
    obtain ⟨sid, v⟩ := entry
    intro st st1 secs h hinv
    unfold processSections at h
    split at h
    · exact absurd h (by simp)
    next stMid items hentries =>
      split at h
      · exact absurd h (by simp)
      next st2 secs2 hrest =>
        cases h
        obtain ⟨hinv1, ⟨kvs0, hkv0⟩, _, hitems⟩ := processEntries_spec hentries hinv
        obtain ⟨hinv2, ⟨kvs1, hkv1⟩, hsecs⟩ := ih hrest hinv1
        refine ⟨hinv2, ⟨kvs0 ++ kvs1, by rw [hkv1, hkv0, List.append_assoc]⟩, ?_⟩
        intro sec hsec it hit
        rcases List.mem_append.1 hsec with hin | hin
        · by_cases hne : items.isEmpty = true
          · rw [if_pos hne] at hin
            simp at hin
          · rw [if_neg hne] at hin
            simp at hin
            subst hin
            obtain ⟨kv, hkvmem, h1, h2, h3, h4⟩ := hitems it hit
            exact ⟨kv, by rw [hkv1]; exact List.mem_append_left _ hkvmem, h1, h2, h3, h4⟩
        · exact hsecs sec hin it hit

theorem stateInv_empty : StateInv ⟨[], []⟩ := by
  refine ⟨by simp, by simp, by simp, by simp⟩

theorem runLoadDocs_ok_cases {ctx : BuildCtx} {cfg : List (String × ConfigValue)} {d : DocsDataM}
    (h : runLoadDocs ctx cfg = .ok d) :
    ∃ st secs, processSections ctx ⟨[], []⟩ cfg = .ok (st, secs) ∧
      d.pages = st.pagesMap.map (fun kv => kv.2) ∧ d.sections = secs := by
  unfold runLoadDocs at h
  split at h
  · exact absurd h (by simp)
  next st secs hps =>
    dsimp only at h
    split at h
    · exact absurd h (by simp)
    · cases h
      exact ⟨st, secs, hps, rfl, rfl⟩

theorem values_filter_eq :
    ∀ {m : List (String × DocsPageM)}, (m.map fun kv => kv.1).Nodup →
      (∀ kv ∈ m, kv.2.sourcePath = kv.1) → ∀ {kv0}, kv0 ∈ m →
      ((m.map fun kv => kv.2).filter fun pg => pg.sourcePath == kv0.1) = [kv0.2] := by
  intro m
  induction m with
  | nil => intro _ _ kv0 h; simp at h
  | cons kv rest ih =>
    intro hnodup hsp kv0 hmem
    have hkvsp : kv.2.sourcePath = kv.1 := hsp kv (by simp)
    rw [List.map_cons] at hnodup
    have hcons := List.nodup_cons.1 hnodup
    have hheadkey : kv.1 ∉ rest.map fun x => x.1 := hcons.1
    have hrestnodup : (rest.map fun x => x.1).Nodup := hcons.2
    have hrestsp : ∀ x ∈ rest, x.2.sourcePath = x.1 := fun x hx => hsp x (by simp [hx])
    rcases List.mem_cons.1 hmem with heq | hin
    · rw [heq]
      simp only [List.map_cons]
      rw [List.filter_cons_of_pos (by simp [hkvsp])]
      have hrest : (rest.map fun x => x.2).filter (fun pg => pg.sourcePath == kv.1) = [] := by
        rw [List.filter_eq_nil_iff]
        intro pg hpg
        obtain ⟨x, hx, rfl⟩ := List.mem_map.1 hpg
        have hxsp : x.2.sourcePath = x.1 := hrestsp x hx
        simp only [hxsp, beq_iff_eq]
        intro hxx
        exact hheadkey (hxx ▸ List.mem_map_of_mem (fun y => y.1) hx)
      rw [hrest]
    · have hne : kv.1 ≠ kv0.1 := by
        intro hxx
        have : kv0.1 ∈ rest.map fun x => x.1 := List.mem_map_of_mem (fun y => y.1) hin
        exact hheadkey (hxx ▸ this)
      simp only [List.map_cons]
      rw [List.filter_cons_of_neg (by simpa [hkvsp] using hne)]
      exact ih hrestnodup hrestsp hin

/-! ## Claim C1 -/

/-- C1 (counterexample): the claim says that when two different source paths
derive the same base slug, the first-encountered path keeps the base slug.
In the run below, `x-2.md` and `sub/x-2.md` are two different source paths
that both derive base slug `x-2`, yet the first-encountered of them
(`x-2.md`) is assigned `x-2-2`, not its base slug `x-2`: the global seen-slug
set already contains `x-2` because the earlier collision of `x.md` and
`sub/x.md` (base slug `x`) consumed it as the suffix slug `x-2`. -/
theorem c1_counterexample :
    (runLoadDocs ctxA cfgSlugs).map (fun d => d.pages.map fun pg => (pg.sourcePath, pg.slug)) =
      .ok [("x.md", "x"), ("sub/x.md", "x-2"), ("x-2.md", "x-2-2"), ("sub/x-2.md", "x-2-3")] ∧
    slugFromPath "x-2.md" = "x-2" ∧ slugFromPath "sub/x-2.md" = "x-2" ∧
    ("x-2.md" : String) ≠ "sub/x-2.md" ∧ ("x-2-2" : String) ≠ "x-2" :=
  ⟨rfl, rfl, rfl, by decide, by decide⟩

/-- C1 (amended): for every successful run, no two pages share a slug; a base
slug not yet in the global seen-slug set is kept as is (in particular the
first-encountered path of a base slug keeps it whenever no earlier page
already consumed that slug); and a base slug already in the set is resolved
deterministically to `base-k` for the smallest `k ≥ 2` whose suffix slug is
unused at that point. -/
theorem c1_amended_slug_assignment :
    (∀ (ctx : BuildCtx) (config : List (String × ConfigValue)) (d : DocsDataM),
        runLoadDocs ctx config = .ok d → (d.pages.map fun pg => pg.slug).Nodup) ∧
    (∀ (baseSlug : String) (seen : List String), baseSlug ∉ seen →
        (makeUniqueSlug baseSlug seen).1 = baseSlug) ∧
    (∀ (baseSlug : String) (seen : List String), baseSlug ∈ seen →
        ∃ k, 2 ≤ k ∧ (makeUniqueSlug baseSlug seen).1 = suffixSlug baseSlug k ∧
          suffixSlug baseSlug k ∉ seen ∧ ∀ j, 2 ≤ j → j < k → suffixSlug baseSlug j ∈ seen) := by
  refine ⟨?_, fun b s h => makeUniqueSlug_of_not_mem h, fun b s h => makeUniqueSlug_of_mem h⟩
  intro ctx config d hrun
  obtain ⟨st, secs, hps, hpages, _⟩ := runLoadDocs_ok_cases hrun
  obtain ⟨⟨_, _, hslugs, _⟩, _, _⟩ := processSections_spec hps stateInv_empty
  rw [hpages, List.map_map]
  exact hslugs

/-- C1 (witness): the amended theorem applied at the fixture run and at two
concrete seen-slug sets. -/
theorem c1_amended_slug_assignment_witness :
    (dataDedup.pages.map fun pg => pg.slug).Nodup ∧
    (makeUniqueSlug "x" []).1 = "x" ∧
    (∃ k, 2 ≤ k ∧ (makeUniqueSlug "x" ["x"]).1 = suffixSlug "x" k ∧
      suffixSlug "x" k ∉ ["x"] ∧ ∀ j, 2 ≤ j → j < k → suffixSlug "x" j ∈ ["x"]) :=
  ⟨c1_amended_slug_assignment.1 ctxA cfgDedup dataDedup rfl,
    c1_amended_slug_assignment.2.1 "x" [] (by decide),
    c1_amended_slug_assignment.2.2 "x" ["x"] (by decide)⟩

/-! ## Claim C2 -/

/-- C2: in every successful run, every navigation item of every emitted
section is backed by exactly one page of `pages` for its source path, and
that page carries the item's slug and title: filtering `pages` by the item's
source path yields exactly one page whose slug/title pair is the item's.  In
particular a source path referenced by several sections has exactly one page,
and the items of all referencing sections carry that page's slug and
title. -/
theorem c2_dedup_unique_page (ctx : BuildCtx) (config : List (String × ConfigValue))
    (d : DocsDataM) (sec : DocsSectionM) (it : DocsItemM)
    (hrun : runLoadDocs ctx config = .ok d) (hsec : sec ∈ d.sections) (hit : it ∈ sec.items) :
    (d.pages.filter fun pg => pg.sourcePath == it.sourcePath).map (fun pg => (pg.slug, pg.title)) =
      [(it.slug, it.title)] := by
  obtain ⟨st, secs, hps, hpages, hsections⟩ := runLoadDocs_ok_cases hrun
  obtain ⟨⟨hkeys, hsp, _, _⟩, _, hitems⟩ := processSections_spec hps stateInv_empty
  rw [hsections] at hsec
  obtain ⟨kv, hkvmem, h1, h2, h3, h4⟩ := hitems sec hsec it hit
  have hfilter := values_filter_eq hkeys hsp hkvmem
  rw [h1] at hfilter
  rw [hpages, hfilter]
  simp [h3, h4]

/-- C2 (witness): the theorem applied to the fixture manifest in which
sections `a` and `b` both reference `p.md`. -/
theorem c2_dedup_unique_page_witness :
    (dataDedup.pages.filter fun pg => pg.sourcePath == itemP.sourcePath).map
        (fun pg => (pg.slug, pg.title)) = [(itemP.slug, itemP.title)] :=
  c2_dedup_unique_page ctxA cfgDedup dataDedup ⟨"b", "B", [itemP]⟩ itemP rfl
    (by simp [dataDedup]) (by simp)

/-! ## Claim C4 -/

/-- C4: a successful run never carries an empty `pages` list — zero resolved
pages makes `loadDocsFromRemote` throw instead (`EmptyResultError`); in
particular a manifest whose every entry is in the skip-list fails with that
error for every fetch/render environment, without consulting it. -/
theorem c4_no_empty_success :
    (∀ (ctx : BuildCtx) (config : List (String × ConfigValue)) (d : DocsDataM),
        runLoadDocs ctx config = .ok d → d.pages ≠ []) ∧
    (∀ ctx : BuildCtx, runLoadDocs ctx cfgSkipOnly = .error .emptyResult) := by
  constructor
  · intro ctx config d h
    unfold runLoadDocs at h
    split at h
    · exact absurd h (by simp)
    next st secs hps =>
      dsimp only at h
      split at h
      · exact absurd h (by simp)
      next hempty =>
        cases h
        intro hnil
        have hnil2 : (st.pagesMap.map fun kv => kv.2) = [] := hnil
        exact hempty (by rw [hnil2]; rfl)
  · intro ctx
    rfl

/-- C4 (witness): the first conjunct applied at the fixture run. -/
theorem c4_no_empty_success_witness : dataDedup.pages ≠ [] :=
  c4_no_empty_success.1 ctxA cfgDedup dataDedup rfl

/-! ## First-referencing-section attribution -/

theorem processEntries_append {ctx : BuildCtx} {sid : String} :
    ∀ {entries : List String} {st st1 : LoadState} {items : List DocsItemM},
      processEntries ctx sid st entries = .ok (st1, items) →
      ∃ kvs, st1.pagesMap = st.pagesMap ++ kvs := by
  intro entries
  induction entries with
  | nil =>
    intro st st1 items h
    unfold processEntries at h
    cases h
    exact ⟨[], by simp⟩
  | cons raw0 rest ih =>
    intro st st1 items h
    unfold processEntries at h
    split at h
    · exact absurd h (by simp)
    next stMid itemQ hhead =>
      split at h
      · exact absurd h (by simp)
      next st2 items2 htail =>
        cases h
        obtain ⟨kvs1, hkv1⟩ := ih htail
        obtain ⟨⟨kvs0, hkv0⟩, _⟩ := processEntry_append hhead
        exact ⟨kvs0 ++ kvs1, by rw [hkv1, hkv0, List.append_assoc]⟩

theorem processEntries_mem_of_ref {ctx : BuildCtx} {sid : String} :
    ∀ {entries : List String} {st st1 : LoadState} {items : List DocsItemM},
      processEntries ctx sid st entries = .ok (st1, items) →
      ∀ raw ∈ entries, ∀ {key : String}, normStr raw = key →
        isTemporarilySkippedDocE key = .ok false →
        key ∈ st1.pagesMap.map fun kv => kv.1 := by
  intro entries
  induction entries with
  | nil =>
    intro st st1 items h raw hraw
    simp at hraw
  | cons raw0 rest ih =>
    intro st st1 items h raw hraw key hkey hskip
    unfold processEntries at h
    split at h
    · exact absurd h (by simp)
    next stMid itemQ hhead =>
      split at h
      · exact absurd h (by simp)
      next st2 items2 htail =>
        cases h
        obtain ⟨kvs1, hkv1⟩ := processEntries_append htail
        rcases List.mem_cons.1 hraw with heq | hin
        · subst heq
          rcases processEntry_cases hhead with ⟨_, _, key2, hk2, hsk2⟩ |
            ⟨hst, key2, page, hk2, hsk2, hlook, _⟩ |
            ⟨key2, page, hk2, hsk2, hlook, _, _, _, _, hst, _⟩
          · have hkeq : key2 = key := by rw [normalizeSourcePathE_ok_val hk2, hkey]
            rw [hkeq] at hsk2
            rw [hsk2] at hskip
            exact absurd hskip (by simp)
          · have hkeq : key2 = key := by rw [normalizeSourcePathE_ok_val hk2, hkey]
            rw [← hkeq]
            have hmem : key2 ∈ stMid.pagesMap.map fun kv => kv.1 := by
              rw [hst]
              exact List.mem_map_of_mem (fun kv => kv.1) (lookup_some_mem hlook)
            rw [hkv1, List.map_append]
            exact List.mem_append_left _ hmem
          · have hkeq : key2 = key := by rw [normalizeSourcePathE_ok_val hk2, hkey]
            rw [← hkeq]
            have hmem : key2 ∈ stMid.pagesMap.map fun kv => kv.1 := by
              rw [hst]
              simp
            rw [hkv1, List.map_append]
            exact List.mem_append_left _ hmem
        · exact ih htail raw hin hkey hskip

theorem processEntries_new_pages {ctx : BuildCtx} {sid : String} :
    ∀ {entries : List String} {st st1 : LoadState} {items : List DocsItemM},
      processEntries ctx sid st entries = .ok (st1, items) →
      ∀ kv ∈ st1.pagesMap, kv ∈ st.pagesMap ∨
        (kv.1 ∉ (st.pagesMap.map fun x => x.1) ∧ kv.2.sourcePath = kv.1 ∧
         kv.2.sectionId = sid ∧ kv.2.sectionLabel = sectionLabelFn sid ∧
         (∃ raw ∈ entries, normStr raw = kv.1) ∧
         isTemporarilySkippedDocE kv.1 = .ok false) := by
  intro entries
  induction entries with
  | nil =>
    intro st st1 items h kv hkv
    unfold processEntries at h
    cases h
    exact Or.inl hkv
  | cons raw0 rest ih =>
    intro st st1 items h kv hkv
    unfold processEntries at h
    split at h
    · exact absurd h (by simp)
    next stMid itemQ hhead =>
      split at h
      · exact absurd h (by simp)
      next st2 items2 htail =>
        cases h
        obtain ⟨⟨kvs0, hkv0⟩, _⟩ := processEntry_append hhead
        rcases ih htail kv hkv with hmid | ⟨hnot, hsp, hsid, hlabel, ⟨raw, hraw, hnorm⟩, hskip⟩
        · rcases processEntry_cases hhead with ⟨hst, _, _⟩ | ⟨hst, _⟩ |
            ⟨key2, page, hk2, hsk2, hlook, hpsp, hpsid, hplabel, _, hst, _⟩
          · exact Or.inl (hst ▸ hmid)
          · exact Or.inl (hst ▸ hmid)
          · rw [hst] at hmid
            rcases List.mem_append.1 hmid with hin | hin
            · exact Or.inl hin
            · simp only [List.mem_singleton] at hin
              subst hin
              refine Or.inr ⟨lookup_none_keys hlook, hpsp, hpsid, hplabel,
                ⟨raw0, by simp, ?_⟩, ?_⟩
              · exact (normalizeSourcePathE_ok_val hk2).symm
              · exact hsk2
        · refine Or.inr ⟨?_, hsp, hsid, hlabel, ⟨raw, by simp [hraw], hnorm⟩, hskip⟩
          intro hmem
          apply hnot
          rw [hkv0, List.map_append]
          exact List.mem_append_left _ hmem

theorem processSections_new_pages {ctx : BuildCtx} :
    ∀ {cfg : List (String × ConfigValue)} {st st1 : LoadState} {secs : List DocsSectionM},
      processSections ctx st cfg = .ok (st1, secs) →
      ∀ kv ∈ st1.pagesMap, kv ∈ st.pagesMap ∨
        (kv.1 ∉ (st.pagesMap.map fun x => x.1) ∧ kv.2.sourcePath = kv.1 ∧
         kv.2.sectionLabel = sectionLabelFn kv.2.sectionId ∧
         isTemporarilySkippedDocE kv.1 = .ok false ∧
         firstReferencingSection cfg kv.1 = some kv.2.sectionId) := by
  intro cfg
  induction cfg with
  | nil =>
    intro st st1 secs h kv hkv
    unfold processSections at h
    cases h
    exact Or.inl hkv
  | cons entry rest ih =>
    obtain ⟨sid, v⟩ := entry
    intro st st1 secs h kv hkv
    unfold processSections at h
    split at h
    · exact absurd h (by simp)
    next stMid items hentries =>
      split at h
      · exact absurd h (by simp)
      next st2 secs2 hrest =>
        cases h
        obtain ⟨kvs0, hkv0⟩ := processEntries_append hentries
        rcases ih hrest kv hkv with hmid | ⟨hnot, hsp, hlabel, hskip, hfirst⟩
        · rcases processEntries_new_pages hentries kv hmid with hin |
            ⟨hnot0, hsp0, hsid0, hlabel0, ⟨raw, hraw, hnorm⟩, hskip0⟩
          · exact Or.inl hin
          · refine Or.inr ⟨hnot0, hsp0, by rw [hlabel0, hsid0], hskip0, ?_⟩
            unfold firstReferencingSection
            rw [if_pos ?cond]
            case cond =>
              rw [List.any_eq_true]
              exact ⟨raw, hraw, by simp [hnorm]⟩
            rw [hsid0]
        · refine Or.inr ⟨?_, hsp, hlabel, hskip, ?_⟩
          · intro hmem
            apply hnot
            rw [hkv0, List.map_append]
            exact List.mem_append_left _ hmem
          · unfold firstReferencingSection
            rw [if_neg ?ncond]
            case ncond =>
              intro hany
              rw [List.any_eq_true] at hany
              obtain ⟨raw, hraw, hbeq⟩ := hany
              have hnorm : normStr raw = kv.1 := by simpa using hbeq
              have := processEntries_mem_of_ref hentries raw hraw hnorm hskip
              exact hnot this
            exact hfirst

/-! ## Claim C9 -/

/-- C9: in every successful run, every page's `sectionId` is the id of the
first section (in manifest order) one of whose entries normalizes to the
page's source path, and its `sectionLabel` is the label derived from that
id; later sections referencing the same path reuse the page without
changing those fields. -/
theorem c9_first_section_attribution (ctx : BuildCtx) (config : List (String × ConfigValue))
    (d : DocsDataM) (pg : DocsPageM)
    (hrun : runLoadDocs ctx config = .ok d) (hpg : pg ∈ d.pages) :
    firstReferencingSection config pg.sourcePath = some pg.sectionId ∧
    pg.sectionLabel = sectionLabelFn pg.sectionId := by
  obtain ⟨st, secs, hps, hpages, _⟩ := runLoadDocs_ok_cases hrun
  rw [hpages] at hpg
  obtain ⟨kv, hkv, rfl⟩ := List.mem_map.1 hpg
  rcases processSections_new_pages hps kv hkv with hin | ⟨_, hsp, hlabel, _, hfirst⟩
  · simp at hin
  · rw [hsp]
    exact ⟨hfirst, hlabel⟩

/-- C9 (witness): the theorem applied to the fixture run, in which sections
`a` and `b` both reference `p.md` and the page carries section `a`. -/
theorem c9_first_section_attribution_witness :
    firstReferencingSection cfgDedup pageP.sourcePath = some pageP.sectionId ∧
    pageP.sectionLabel = sectionLabelFn pageP.sectionId :=
  c9_first_section_attribution ctxA cfgDedup dataDedup pageP rfl (by simp [dataDedup])

/-! ## Claim C3 -/

theorem normalizeSourcePathE_ok_conditions {p q : String}
    (h : normalizeSourcePathE p = .ok q) :
    normStr p ≠ "" ∧ (splitOnChar '/' (normStr p)).contains ".." = false := by
  unfold normalizeSourcePathE at h
  dsimp only at h
  split at h
  · exact absurd h (by simp)
  · split at h
    · exact absurd h (by simp)
    · rename_i h1 h2
      exact ⟨h1, by simpa using h2⟩

/-- C3: `normalizeSourcePath` fails exactly when the normalized path (all
backslashes replaced by slashes, one leading `./`-run and one leading
slash-run stripped) is empty or contains a `..` segment; the three inputs of
the claim all fail; every other path is returned in normalized form; and a
manifest whose first entry is `../secret.md` fails the whole run for every
fetch/render environment — the fetcher is never consulted. -/
theorem c3_invalid_path_iff :
    (∀ p : String, (∃ e, normalizeSourcePathE p = .error e) ↔
      (normStr p = "" ∨ (splitOnChar '/' (normStr p)).contains ".." = true)) ∧
    normalizeSourcePathE "../secret.md" = .error (.invalidPath "../secret.md") ∧
    normalizeSourcePathE "a/../../b.md" = .error (.invalidPath "a/../../b.md") ∧
    normalizeSourcePathE "" = .error (.invalidPath "") ∧
    (∀ p : String, ¬(normStr p = "" ∨ (splitOnChar '/' (normStr p)).contains ".." = true) →
      normalizeSourcePathE p = .ok (normStr p)) ∧
    (∀ ctx : BuildCtx, runLoadDocs ctx cfgTraversal = .error (.invalidPath "../secret.md")) := by
  have hok : ∀ p : String, ¬(normStr p = "" ∨ (splitOnChar '/' (normStr p)).contains ".." = true) →
      normalizeSourcePathE p = .ok (normStr p) := by
    intro p hcond
    obtain ⟨h1, h2⟩ := not_or.1 hcond
    unfold normalizeSourcePathE
    dsimp only
    rw [if_neg h1, if_neg h2]
  refine ⟨?_, rfl, rfl, rfl, hok, fun ctx => rfl⟩
  intro p
  constructor
  · rintro ⟨e, he⟩
    by_contra hcond
    rw [hok p hcond] at he
    exact absurd he (by simp)
  · intro hcond
    rcases hcond with hempty | hdots
    · exact ⟨.invalidPath p, by unfold normalizeSourcePathE; dsimp only; rw [if_pos hempty]⟩
    · by_cases hempty : normStr p = ""
      · exact ⟨.invalidPath p, by unfold normalizeSourcePathE; dsimp only; rw [if_pos hempty]⟩
      · exact ⟨.invalidPath p,
          by unfold normalizeSourcePathE; dsimp only; rw [if_neg hempty, if_pos hdots]⟩

/-- C3 (witness): the acceptance conjunct applied at `a/b.md`. -/
theorem c3_invalid_path_iff_witness : normalizeSourcePathE "a/b.md" = .ok "a/b.md" :=
  c3_invalid_path_iff.2.2.2.2.1 "a/b.md" (by decide)

/-! ## Claim C10 -/

/-- C10 (counterexample): `normalizeSourcePath` is not idempotent.  The
leading-`./` regex strips only one dot-slash group, so the accepted path
`././a.md` normalizes to `./a.md`, which normalizes further to `a.md`. -/
theorem c10_counterexample :
    normalizeSourcePathE "././a.md" = .ok "./a.md" ∧
    normalizeSourcePathE "./a.md" = .ok "a.md" ∧ ("./a.md" : String) ≠ "a.md" :=
  ⟨rfl, rfl, by decide⟩

theorem head_dropWhile_false (p : Char → Bool) :
    ∀ (l : List Char) {c : Char}, (l.dropWhile p).head? = some c → p c = false := by
  intro l
  induction l with
  | nil => intro c h; simp at h
  | cons a t ih =>
    intro c h
    rw [List.dropWhile_cons] at h
    by_cases hp : p a = true
    · rw [if_pos hp] at h
      exact ih h
    · rw [if_neg hp] at h
      simp only [List.head?_cons, Option.some.injEq] at h
      rw [← h]
      exact Bool.not_eq_true _ ▸ (by simpa using hp)

theorem normStrChars_no_backslash (cs : List Char) : '\\' ∉ normStrChars cs := by
  intro hmem
  have h1 : '\\' ∈ stripDotSlash (backslashToSlash cs) :=
    (List.dropWhile_sublist _).subset hmem
  have h2 : '\\' ∈ backslashToSlash cs := by
    unfold stripDotSlash at h1
    split at h1
    · rename_i c1 c2 rest heq
      split at h1
      · rw [heq]
        have := (List.dropWhile_sublist fun c => decide (c = '/')).subset h1
        exact List.mem_cons_of_mem _ (List.mem_cons_of_mem _ this)
      · exact h1
    · exact h1
  obtain ⟨a, _, ha⟩ := List.mem_map.1 h2
  by_cases hb : a = '\\'
  · rw [hb] at ha
    simp at ha
  · rw [if_neg hb] at ha
    exact hb ha

theorem normStrChars_head_not_slash (cs : List Char) :
    ∀ {c : Char}, (normStrChars cs).head? = some c → c ≠ '/' := by
  intro c h
  have := head_dropWhile_false (fun x => decide (x = '/')) (stripDotSlash (backslashToSlash cs)) h
  simpa using this

theorem normStr_fixpoint {q : String} (hnb : '\\' ∉ q.data)
    (hds : startsWithDotSlash q = false)
    (hhead : ∀ c, q.data.head? = some c → c ≠ '/') : normStr q = q := by
  have hb : backslashToSlash q.data = q.data := by
    unfold backslashToSlash
    have : List.map (fun c => if c = '\\' then '/' else c) q.data = List.map id q.data := by
      apply List.map_congr_left
      intro a ha
      rw [if_neg]
      · rfl
      · intro hcon
        exact hnb (hcon ▸ ha)
    rw [this, List.map_id]
  have hd : stripDotSlash q.data = q.data := by
    unfold stripDotSlash
    split
    · rename_i c1 c2 rest heq
      rw [if_neg]
      intro ⟨hc1, hc2⟩
      unfold startsWithDotSlash at hds
      rw [heq] at hds
      simp [hc1, hc2] at hds
    · rfl
  have hs : stripLeadingSlashes q.data = q.data := by
    unfold stripLeadingSlashes
    cases hq : q.data with
    | nil => rfl
    | cons c rest =>
      rw [List.dropWhile_cons, if_neg]
      simp only [decide_eq_true_eq]
      exact hhead c (by rw [hq]; rfl)
  unfold normStr normStrChars
  rw [hb, hd, hs]

/-- C10 (amended): `normalizeSourcePath` is idempotent on every accepted path
whose normalized form does not itself begin with `./`; equivalently, a
normalized form that does not begin with `./` is a fixed point.  (The
counterexample shows the restriction is necessary: `././a.md` is accepted
with the normalized form `./a.md`, which normalizes further.) -/
theorem c10_amended_idempotent (p q : String) (h : normalizeSourcePathE p = .ok q)
    (hds : startsWithDotSlash q = false) : normalizeSourcePathE q = .ok q := by
  have hq : q = normStr p := normalizeSourcePathE_ok_val h
  obtain ⟨hne, hcontains⟩ := normalizeSourcePathE_ok_conditions h
  have hfix : normStr q = q := by
    refine normStr_fixpoint ?_ hds ?_
    · rw [hq]
      exact normStrChars_no_backslash p.data
    · intro c hc
      rw [hq] at hc
      exact normStrChars_head_not_slash p.data hc
  unfold normalizeSourcePathE
  dsimp only
  rw [hfix]
  rw [← hq] at hne hcontains
  rw [if_neg hne, if_neg (by rw [hcontains]; simp)]

/-- C10 (witness): the amended theorem applied at `sub/c.md`, which is its
own normalized form. -/
theorem c10_amended_idempotent_witness : normalizeSourcePathE "sub/c.md" = .ok "sub/c.md" :=
  c10_amended_idempotent "sub/c.md" "sub/c.md" rfl rfl

/-! ## Claim C5 -/

/-- C5: a decoded code block is classified as an ASCII diagram exactly when
its normalized text has at least 4 lines, at least 6 box-drawing characters
or at least 2 arrow characters, and no line that looks like a shell command;
and the diagram check takes priority over the shell- and JSON-language
branches (the language tag is irrelevant to the diagram outcome). -/
theorem c5_diagram_classification (language : Option String) (code : String) :
    classifyCodeBlock language code = .diagram ↔
      (4 ≤ (diagramLines code).length ∧ (6 ≤ boxCharCount code ∨ 2 ≤ arrowCount code) ∧
        commandLikeLineCount code = 0) := by
  have hiff : looksLikeAsciiDiagram code = true ↔
      (4 ≤ (diagramLines code).length ∧ (6 ≤ boxCharCount code ∨ 2 ≤ arrowCount code) ∧
        commandLikeLineCount code = 0) := by
    unfold looksLikeAsciiDiagram
    by_cases h4 : (diagramLines code).length < 4
    · rw [if_pos h4]
      constructor
      · intro hcon
        exact absurd hcon (by simp)
      · rintro ⟨hc, _⟩
        omega
    · rw [if_neg h4]
      simp only [Bool.and_eq_true, Bool.or_eq_true, decide_eq_true_eq]
      constructor
      · rintro ⟨h1, h2⟩
        exact ⟨by omega, h1, h2⟩
      · rintro ⟨_, h1, h2⟩
        exact ⟨h1, h2⟩
  unfold classifyCodeBlock
  by_cases hd : looksLikeAsciiDiagram code = true
  · rw [if_pos hd]
    simp only [true_iff]
    exact hiff.1 hd
  · rw [if_neg hd]
    constructor
    · intro hcon
      exfalso
      by_cases hs : isShellLanguage language = true
      · rw [if_pos hs] at hcon
        exact CodeBlockKind.noConfusion hcon
      · rw [if_neg hs] at hcon
        by_cases hj : isJsonLanguage language = true
        · rw [if_pos hj] at hcon
          exact CodeBlockKind.noConfusion hcon
        · rw [if_neg hj] at hcon
          exact CodeBlockKind.noConfusion hcon
    · intro hrhs
      exact absurd (hiff.2 hrhs) hd

/-- C5 (witness): the theorem applied at a `bash`-tagged four-line box
diagram (classified as a diagram despite the shell language tag) and the
conditions checked at a block containing a `curl` line (not a diagram). -/
theorem c5_diagram_classification_witness :
    classifyCodeBlock (some "bash") diagramFixture = .diagram ∧
    classifyCodeBlock (some "bash") "┌──┐\n│ab│\ncurl x\n└──┘" ≠ .diagram :=
  ⟨(c5_diagram_classification (some "bash") diagramFixture).mpr (by decide),
    fun hcon => by
      have := (c5_diagram_classification (some "bash") "┌──┐\n│ab│\ncurl x\n└──┘").mp hcon
      revert this
      decide⟩

/-! ## Claim C6 -/

theorem insertStable_perm (le : ApiEndpointM → ApiEndpointM → Bool) (a : ApiEndpointM) :
    ∀ l, (insertStable le a l).Perm (a :: l) := by
  intro l
  induction l with
  | nil => exact List.Perm.refl _
  | cons b rest ih =>
    unfold insertStable
    by_cases h : le b a = true
    · rw [if_pos h]
      exact (ih.cons b).trans (List.Perm.swap a b rest)
    · rw [if_neg h]

theorem foldl_insertStable_perm (le : ApiEndpointM → ApiEndpointM → Bool) :
    ∀ (l acc : List ApiEndpointM),
      (List.foldl (fun acc a => insertStable le a acc) acc l).Perm (acc ++ l) := by
  intro l
  induction l with
  | nil => intro acc; simp
  | cons a rest ih =>
    intro acc
    rw [List.foldl_cons]
    exact (ih _).trans
      (((insertStable_perm le a acc).append_right rest).trans List.perm_middle.symm)

theorem insertStable_pairwise {le : ApiEndpointM → ApiEndpointM → Bool}
    (htrans : ∀ a b c, le a b = true → le b c = true → le a c = true)
    (htotal : ∀ a b, le a b = true ∨ le b a = true)
    (a : ApiEndpointM) :
    ∀ {l}, l.Pairwise (fun x y => le x y = true) →
      (insertStable le a l).Pairwise (fun x y => le x y = true) := by
  intro l
  induction l with
  | nil =>
    intro _
    simp [insertStable]
  | cons b rest ih =>
    intro hp
    obtain ⟨hb, hrest⟩ := List.pairwise_cons.1 hp
    unfold insertStable
    by_cases h : le b a = true
    · rw [if_pos h]
      refine List.pairwise_cons.2 ⟨?_, ih hrest⟩
      intro y hy
      have hy2 : y ∈ a :: rest := (insertStable_perm le a rest).mem_iff.1 hy
      rcases List.mem_cons.1 hy2 with rfl | hy3
      · exact h
      · exact hb y hy3
    · rw [if_neg h]
      have hab : le a b = true := by
        rcases htotal a b with h1 | h1
        · exact h1
        · exact absurd h1 h
      refine List.pairwise_cons.2 ⟨?_, hp⟩
      intro y hy
      rcases List.mem_cons.1 hy with rfl | hy2
      · exact hab
      · exact htrans a b y hab (hb y hy2)

theorem jsStableSort_pairwise {le : ApiEndpointM → ApiEndpointM → Bool}
    (htrans : ∀ a b c, le a b = true → le b c = true → le a c = true)
    (htotal : ∀ a b, le a b = true ∨ le b a = true)
    (l : List ApiEndpointM) :
    (jsStableSort le l).Pairwise (fun x y => le x y = true) := by
  suffices h : ∀ (l acc : List ApiEndpointM), acc.Pairwise (fun x y => le x y = true) →
      (List.foldl (fun acc a => insertStable le a acc) acc l).Pairwise
        (fun x y => le x y = true) by
    exact h l [] (by simp)
  intro l
  induction l with
  | nil => intro acc hacc; exact hacc
  | cons a rest ih =>
    intro acc hacc
    rw [List.foldl_cons]
    exact ih _ (insertStable_pairwise htrans htotal a hacc)

theorem endpointLe_iff (lc : String → String → Int) (a b : ApiEndpointM) :
    endpointLe lc a b = true ↔
      (lc a.path b.path < 0 ∨ (lc a.path b.path = 0 ∧ lc a.method b.method ≤ 0)) := by
  unfold endpointLe endpointCmp
  by_cases h : lc a.path b.path ≠ 0
  · rw [if_pos h]
    simp only [decide_eq_true_eq]
    omega
  · rw [if_neg h]
    simp only [decide_eq_true_eq]
    omega

theorem endpointLe_trans {lc : String → String → Int} (hlc : ConsistentComparator lc)
    (a b c : ApiEndpointM) (h1 : endpointLe lc a b = true) (h2 : endpointLe lc b c = true) :
    endpointLe lc a c = true := by
  obtain ⟨ht, htr, hs⟩ := hlc
  rw [endpointLe_iff] at h1 h2 ⊢
  have htr1 := htr a.path b.path c.path
  have htr2 := htr c.path a.path b.path
  have htr3 := htr b.path c.path a.path
  have htrm := htr a.method b.method c.method
  have hs1 := hs a.path b.path
  have hs2 := hs b.path a.path
  have hs3 := hs b.path c.path
  have hs4 := hs c.path b.path
  have hs5 := hs a.path c.path
  have hs6 := hs c.path a.path
  omega

theorem endpointLe_total {lc : String → String → Int} (hlc : ConsistentComparator lc)
    (a b : ApiEndpointM) : endpointLe lc a b = true ∨ endpointLe lc b a = true := by
  obtain ⟨ht, htr, hs⟩ := hlc
  rw [endpointLe_iff, endpointLe_iff]
  have h1 := ht a.method b.method
  have h2 := hs a.path b.path
  have h3 := hs b.path a.path
  omega

theorem caseFoldCmp_lt_iff (a b : String) :
    caseFoldCmp a b < 0 ↔ localeKey a < localeKey b := by
  unfold caseFoldCmp
  rcases lt_trichotomy (localeKey a) (localeKey b) with h | h | h
  · rw [if_pos h]
    simp [h]
  · have h1 : ¬ localeKey a < localeKey b := by rw [h]; exact lt_irrefl _
    have h2 : ¬ localeKey b < localeKey a := by rw [h]; exact lt_irrefl _
    rw [if_neg h1, if_neg h2]
    simp [h1]
  · rw [if_neg (lt_asymm h), if_pos h]
    simp [lt_asymm h]

theorem caseFoldCmp_pos_iff (a b : String) :
    0 < caseFoldCmp a b ↔ localeKey b < localeKey a := by
  unfold caseFoldCmp
  rcases lt_trichotomy (localeKey a) (localeKey b) with h | h | h
  · rw [if_pos h]
    simp [lt_asymm h]
  · have h1 : ¬ localeKey a < localeKey b := by rw [h]; exact lt_irrefl _
    have h2 : ¬ localeKey b < localeKey a := by rw [h]; exact lt_irrefl _
    rw [if_neg h1, if_neg h2]
    simp [h2]
  · rw [if_neg (lt_asymm h), if_pos h]
    simp [h]

theorem caseFoldCmp_le_iff (a b : String) :
    caseFoldCmp a b ≤ 0 ↔ localeKey a ≤ localeKey b := by
  have h1 := caseFoldCmp_pos_iff a b
  constructor
  · intro h
    by_contra hcon
    exact absurd (h1.2 (lt_of_not_le hcon)) (by omega)
  · intro h
    by_contra hcon
    exact absurd (h1.1 (by omega)) (not_lt_of_le h)

theorem caseFoldCmp_consistent : ConsistentComparator caseFoldCmp := by
  refine ⟨?_, ?_, ?_⟩
  · intro a b
    rw [caseFoldCmp_le_iff, caseFoldCmp_le_iff]
    exact le_total _ _
  · intro a b c h1 h2
    rw [caseFoldCmp_le_iff] at h1 h2 ⊢
    exact le_trans h1 h2
  · intro a b
    rw [caseFoldCmp_lt_iff, caseFoldCmp_pos_iff]

/-- C6 (counterexample): the index is NOT sorted by path lexicographically.
With the two endpoints `GET /B` and `GET /a` (neither HTML-only), the
implemented comparator is `localeCompare`, which under the default locale
orders `/a` before `/B` (case-insensitive at primary strength), while
code-point lexicographic order has `/B` before `/a`.  The comparator
instance `caseFoldCmp` returns exactly the default-locale `localeCompare`
sign on these letters-and-slash strings; under it the emitted row order is
`["/a", "/B"]`, violating the claimed lexicographic sortedness. -/
theorem c6_counterexample :
    (sortEndpoints caseFoldCmp epsCase).map (fun e => e.path) = ["/a", "/B"] ∧
    ¬ pathsLexSorted (sortEndpoints caseFoldCmp epsCase) ∧
    caseFoldCmp "/a" "/B" < 0 ∧
    (epsCase.filter fun e => !e.html) = epsCase := by
  refine ⟨rfl, ?_, by decide, rfl⟩
  intro hcon
  unfold pathsLexSorted at hcon
  have hlist : sortEndpoints caseFoldCmp epsCase =
      [⟨"GET", "/a", false, false⟩, ⟨"GET", "/B", false, false⟩] := rfl
  rw [hlist] at hcon
  have hle := (List.pairwise_cons.1 hcon).1 ⟨"GET", "/B", false, false⟩ (by simp)
  exact absurd hle (by decide)

/-- C6 (amended): for every consistent comparator `lc` — the total-preorder
laws ECMA-402 guarantees for `localeCompare`, whatever the runtime locale —
the index rows are exactly the rendering of the non-HTML-only endpoints
stably sorted by path under `lc` with method as the `lc` tie-break: the row
list is the rendering of the sorted list, the sorted list is ordered by the
composite comparator, and it is a permutation of the non-HTML-only
endpoints.  The order is thus deterministic for a fixed locale, but it is
locale collation, not code-point lexicographic order — see the
counterexample. -/
theorem c6_amended_locale_order (lc : String → String → Int)
    (hlc : ConsistentComparator lc) (endpoints : List ApiEndpointM) :
    apiIndexRows lc endpoints =
      (sortEndpoints lc endpoints).map (renderIndexRow (pathAnchorMap lc endpoints)) ∧
    (sortEndpoints lc endpoints).Pairwise (fun a b => endpointLe lc a b = true) ∧
    (sortEndpoints lc endpoints).Perm (endpoints.filter fun e => !e.html) := by
  refine ⟨rfl, ?_, ?_⟩
  · exact jsStableSort_pairwise (endpointLe_trans hlc) (endpointLe_total hlc) _
  · exact foldl_insertStable_perm (endpointLe lc) _ []

/-- C6 (witness): the amended theorem applied at the concrete consistent
comparator `caseFoldCmp` and the two-endpoint fixture. -/
theorem c6_amended_locale_order_witness :
    (sortEndpoints caseFoldCmp epsCase).Pairwise
      (fun a b => endpointLe caseFoldCmp a b = true) ∧
    (sortEndpoints caseFoldCmp epsCase).Perm (epsCase.filter fun e => !e.html) :=
  ⟨(c6_amended_locale_order caseFoldCmp caseFoldCmp_consistent epsCase).2.1,
    (c6_amended_locale_order caseFoldCmp caseFoldCmp_consistent epsCase).2.2⟩

/-! ## Claim C7 -/

/-- C7 (counterexample): the claim requires a present sequence to be
nonempty ("a sequence may be empty only if the key is absent"), but
`isValidDocsConfig` accepts an object with an empty-array value
(`Array.isArray([]) && [].every(...)` is `true`). -/
theorem c7_counterexample :
    isValidDocsConfig (.obj [("a", .arr [])]) = true ∧
    claimDocsConfigValid (.obj [("a", .arr [])]) = false :=
  ⟨rfl, rfl⟩

/-- C7 (amended): the parsed manifest is accepted exactly when it is a JSON
object whose every value is a string or a (possibly empty) array of strings
— or, because JS `typeof` calls arrays objects and `Object.values` of an
array is its element list, a JSON array whose every element passes the same
check; every other shape is rejected with the schema error. -/
theorem c7_amended_schema (v : JsonValue) :
    (isValidDocsConfig v = true ↔
      ((∃ entries, v = .obj entries ∧ ∀ kv ∈ entries, isStringOrStringArray kv.2 = true) ∨
       (∃ xs, v = .arr xs ∧ ∀ x ∈ xs, isStringOrStringArray x = true))) ∧
    (isValidDocsConfig v = false → validateDocsConfig v = .error .configSchema) ∧
    (isValidDocsConfig v = true → validateDocsConfig v = .ok v) := by
  refine ⟨⟨?_, ?_⟩, ?_, ?_⟩
  · intro h
    cases v with
    | obj entries =>
      left
      refine ⟨entries, rfl, ?_⟩
      intro kv hkv
      exact List.all_eq_true.1 h _ (List.mem_map_of_mem (fun kv => kv.2) hkv)
    | arr xs =>
      right
      exact ⟨xs, rfl, fun x hx => List.all_eq_true.1 h x hx⟩
    | null => exact absurd h (by simp [isValidDocsConfig])
    | bool b => exact absurd h (by simp [isValidDocsConfig])
    | num n => exact absurd h (by simp [isValidDocsConfig])
    | str s => exact absurd h (by simp [isValidDocsConfig])
  · rintro (⟨entries, rfl, hall⟩ | ⟨xs, rfl, hall⟩)
    · show (entries.map fun kv => kv.2).all isStringOrStringArray = true
      rw [List.all_eq_true]
      intro x hx
      obtain ⟨kv, hkv, rfl⟩ := List.mem_map.1 hx
      exact hall kv hkv
    · show xs.all isStringOrStringArray = true
      rw [List.all_eq_true]
      exact hall
  · intro h
    unfold validateDocsConfig
    rw [if_neg (by simp [h])]
  · intro h
    unfold validateDocsConfig
    rw [if_pos h]

/-- C7 (witness): the amended theorem applied at a one-key object and at a
non-object value. -/
theorem c7_amended_schema_witness :
    validateDocsConfig (.obj [("docs", .str "readme.md")]) = .ok (.obj [("docs", .str "readme.md")]) ∧
    validateDocsConfig (.bool true) = .error .configSchema :=
  ⟨(c7_amended_schema (.obj [("docs", .str "readme.md")])).2.2 rfl,
    (c7_amended_schema (.bool true)).2.1 rfl⟩

/-! ## Claim C8 -/

/-- C8 (counterexample): the claim's unchanged-conditions (absolute URL,
leading `/`, leading `#`) are all false for the source value `" /x.png"`
(it starts with a space), so the claim mandates rewriting it to its
resolution — which exists and differs from it — yet the code leaves the tag
byte-for-byte unchanged, because it tests the conditions on the
whitespace-trimmed value, whose leading character is `/`. -/
theorem c8_counterexample :
    transformDocsImgTag resolveFixed "https://example.com/docs/a.md" imgTagPadded = imgTagPadded ∧
    (findSrcMatch imgTagPadded).map (fun r => (⟨r.2⟩ : String)) = some " /x.png" ∧
    claimImgUnchangedCond " /x.png" = false ∧
    resolveFixed " /x.png" "https://example.com/docs/a.md" = some "https://example.com/x.png" ∧
    (" /x.png" : String) ≠ "https://example.com/x.png" :=
  ⟨rfl, rfl, rfl, rfl, by decide⟩

/-- C8 (amended): per `<img>` tag — with the absolute/rooted/fragment
conditions applied to the whitespace-trimmed source value: a tag with no
`src` match is unchanged; a tag whose (trimmed) source is empty, rooted,
a fragment, or absolute is unchanged; a rewritable source whose resolution
fails, or resolves to the original text, leaves the tag unchanged; otherwise
the matched `src` attribute is replaced in place by the resolved URL.  The
last conjunct characterizes the guard on the trimmed value. -/
theorem c8_amended_image_rewrite :
    (∀ (resolveUrl : String → String → Option String) (sourceUrl imgTag : String),
        findSrcMatch imgTag = none →
        transformDocsImgTag resolveUrl sourceUrl imgTag = imgTag) ∧
    (∀ (resolveUrl : String → String → Option String) (sourceUrl imgTag : String)
        (matched srcChars : List Char),
        findSrcMatch imgTag = some (matched, srcChars) →
        shouldResolveRelativeAssetUrl ⟨srcChars⟩ = false →
        transformDocsImgTag resolveUrl sourceUrl imgTag = imgTag) ∧
    (∀ (resolveUrl : String → String → Option String) (sourceUrl imgTag : String)
        (matched srcChars : List Char),
        findSrcMatch imgTag = some (matched, srcChars) →
        shouldResolveRelativeAssetUrl ⟨srcChars⟩ = true →
        resolveUrl ⟨srcChars⟩ sourceUrl = none →
        transformDocsImgTag resolveUrl sourceUrl imgTag = imgTag) ∧
    (∀ (resolveUrl : String → String → Option String) (sourceUrl imgTag : String)
        (matched srcChars : List Char) (resolved : String),
        findSrcMatch imgTag = some (matched, srcChars) →
        shouldResolveRelativeAssetUrl ⟨srcChars⟩ = true →
        resolveUrl ⟨srcChars⟩ sourceUrl = some resolved →
        resolved ≠ (⟨srcChars⟩ : String) →
        transformDocsImgTag resolveUrl sourceUrl imgTag =
          ⟨replaceFirstList matched (srcAttrChars resolved) imgTag.data⟩) ∧
    (∀ url : String, shouldResolveRelativeAssetUrl url = true ↔
        (jsTrim url ≠ "" ∧ strHeadIs '/' (jsTrim url) = false ∧
         strHeadIs '#' (jsTrim url) = false ∧
         hasUrlSchemeOrNetworkPath (jsTrim url) = false)) := by
  refine ⟨?_, ?_, ?_, ?_, ?_⟩
  · intro resolveUrl sourceUrl imgTag h
    unfold transformDocsImgTag
    rw [h]
  · intro resolveUrl sourceUrl imgTag matched srcChars h hres
    unfold transformDocsImgTag
    rw [h]
    dsimp only
    have hra : resolveAssetUrl resolveUrl ⟨srcChars⟩ sourceUrl = ⟨srcChars⟩ := by
      unfold resolveAssetUrl
      rw [if_neg (by simp [hres])]
    rw [hra, if_pos rfl]
  · intro resolveUrl sourceUrl imgTag matched srcChars h hshould hnone
    unfold transformDocsImgTag
    rw [h]
    dsimp only
    have hra : resolveAssetUrl resolveUrl ⟨srcChars⟩ sourceUrl = ⟨srcChars⟩ := by
      unfold resolveAssetUrl
      rw [if_pos hshould, hnone]
    rw [hra, if_pos rfl]
  · intro resolveUrl sourceUrl imgTag matched srcChars resolved h hshould hsome hne
    unfold transformDocsImgTag
    rw [h]
    dsimp only
    have hra : resolveAssetUrl resolveUrl ⟨srcChars⟩ sourceUrl = resolved := by
      unfold resolveAssetUrl
      rw [if_pos hshould, hsome]
    rw [hra, if_neg hne]
  · intro url
    unfold shouldResolveRelativeAssetUrl
    dsimp only
    split
    next hdata =>
      constructor
      · intro hcon
        exact absurd hcon (by simp)
      · rintro ⟨hne, _⟩
        exact absurd (String.ext hdata) hne
    next c rest hdata =>
      have hnonempty : jsTrim url ≠ "" := by
        intro hcon
        rw [hcon] at hdata
        exact List.noConfusion hdata
      have hheadslash : strHeadIs '/' (jsTrim url) = (c == '/') := by
        unfold strHeadIs
        rw [hdata]
        simp
      have hheadhash : strHeadIs '#' (jsTrim url) = (c == '#') := by
        unfold strHeadIs
        rw [hdata]
        simp
      by_cases hc1 : c = '/'
      · rw [if_pos hc1]
        constructor
        · intro hcon
          exact absurd hcon (by simp)
        · rintro ⟨_, hslash, _⟩
          rw [hheadslash, hc1] at hslash
          simp at hslash
      · rw [if_neg hc1]
        by_cases hc2 : c = '#'
        · rw [if_pos hc2]
          constructor
          · intro hcon
            exact absurd hcon (by simp)
          · rintro ⟨_, _, hhash, _⟩
            rw [hheadhash, hc2] at hhash
            simp at hhash
        · rw [if_neg hc2]
          by_cases hc3 : hasUrlSchemeOrNetworkPath (jsTrim url) = true
          · rw [if_pos hc3]
            constructor
            · intro hcon
              exact absurd hcon (by simp)
            · rintro ⟨_, _, _, hscheme⟩
              rw [hc3] at hscheme
              exact Bool.noConfusion hscheme
          · rw [if_neg hc3]
            constructor
            · intro _
              refine ⟨hnonempty, ?_, ?_, by simpa using hc3⟩
              · rw [hheadslash]
                simpa using hc1
              · rw [hheadhash]
                simpa using hc2
            · intro _
              rfl

/-- C8 (witness): the rewrite conjunct applied at a concrete relative
source, and the guard conjunct at a rooted source. -/
theorem c8_amended_image_rewrite_witness :
    transformDocsImgTag resolveToA "https://example.com/docs/a.md" imgTagPlain =
      "<img src=\"https://example.com/a.png\">" ∧
    shouldResolveRelativeAssetUrl "/rooted.png" = false :=
  ⟨(c8_amended_image_rewrite.2.2.2.1 resolveToA "https://example.com/docs/a.md" imgTagPlain
      ("src=\"a.png\"".data) ("a.png".data) "https://example.com/a.png" rfl rfl rfl
      (by decide)).trans rfl,
    by
      have h := c8_amended_image_rewrite.2.2.2.2 "/rooted.png"
      revert h
      decide⟩
